import Mathlib

/-!
Verification of the cargo-auditable sources: the auditable-serde graph
normalizer (From for RawVersionInfo, auditable-serde/src/lib.rs) and the
bounded extraction pipeline (audit-info/src/lib.rs).

The Rust code is shallowly embedded: HashMap is modelled as an association
list whose insert replaces the previous binding and whose lookup finds the
most recent one; fallible operations (unwrap, HashMap indexing, Vec indexing,
panicking conversions) return Except RustPanic; byte readers are modelled as
a list of chunks, one chunk per read call, an empty chunk being an
end-of-stream signal; the external collaborators of audit-info (the
embedded-segment extractor and the zlib inflater) are opaque function
parameters, exactly as the spec treats them.
-/

/-- A Rust panic (unwrap on None, HashMap or Vec indexing miss, or an
explicit panic in a conversion). The message is irrelevant to the claims. -/
inductive RustPanic where
  | panicked
deriving DecidableEq

/-! ### An association-list model of std::collections::HashMap -/

/-- Model of HashMap with String keys: a list of bindings, most recent first. -/
abbrev HMap (α : Type) : Type := List (String × α)

/-- Removal of every binding of a key, the shadowing part of insert. -/
def hmErase {α : Type} (k : String) : HMap α → HMap α
  | [] => []
  | e :: rest => if e.1 = k then hmErase k rest else e :: hmErase k rest

/-- HashMap::insert: the new binding shadows and removes any previous one. -/
def hmInsert {α : Type} (k : String) (v : α) (m : HMap α) : HMap α :=
  (k, v) :: hmErase k m

/-- HashMap lookup (get / index): the most recent binding for the key. -/
def hmLookup {α : Type} (k : String) : HMap α → Option α
  | [] => none
  | e :: rest => if e.1 = k then some e.2 else hmLookup k rest

/-- HashMap::values as a list (iteration order is the list order). -/
def hmValues {α : Type} (m : HMap α) : List α :=
  m.map (fun e => e.2)

/-- HashMap::contains_key. -/
def hmContains {α : Type} (k : String) (m : HMap α) : Bool :=
  (hmLookup k m).isSome

/-! ### auditable-serde: data model -/

/-- cargo_metadata::DependencyKind as consumed by auditable-serde.
The source panics on any variant other than these three; the metadata
provider contract supplies only tags from the set
Development / Build / Runtime-equivalent (Normal). -/
inductive CmDependencyKind where
  | Normal
  | Development
  | Build
deriving DecidableEq

/-- The public two-value dependency kind, ordered weakest to strongest. -/
inductive DependencyKind where
  | Build
  | Runtime
deriving DecidableEq

/-- impl Default for DependencyKind. -/
def dependencyKindDefault : DependencyKind := DependencyKind.Runtime

/-- The internal three-value dependency kind, ordered weakest to strongest. -/
inductive PrivateDepKind where
  | Development
  | Build
  | Runtime
deriving DecidableEq

/-- The declaration-order discriminant of PrivateDepKind; the derived Rust
Ord compares these discriminants. -/
def PrivateDepKind.rank : PrivateDepKind → Nat
  | .Development => 0
  | .Build => 1
  | .Runtime => 2

/-- impl From PrivateDepKind for DependencyKind: panics on Development. -/
def dependencyKindOfPrivate : PrivateDepKind → Except RustPanic DependencyKind
  | .Development => .error .panicked
  | .Build => .ok DependencyKind.Build
  | .Runtime => .ok DependencyKind.Runtime

/-- impl From of cargo_metadata::DependencyKind for PrivateDepKind. -/
def privDepKindOfCm : CmDependencyKind → PrivateDepKind
  | .Normal => PrivateDepKind.Runtime
  | .Development => PrivateDepKind.Development
  | .Build => PrivateDepKind.Build

/-- cargo_metadata::DepKindInfo (the field the source reads). -/
structure DepKindInfo where
  kind : CmDependencyKind
deriving DecidableEq

/-- cargo_metadata::NodeDep: one resolved edge, pkg is the destination
package identifier (PackageId.repr), dep_kinds its edge-kind tags. -/
structure NodeDep where
  pkg : String
  dep_kinds : List DepKindInfo
deriving DecidableEq

/-- cargo_metadata::Node of the resolve tree. -/
structure Node where
  id : String
  deps : List NodeDep
  dependencies : List String
deriving DecidableEq

/-- cargo_metadata::Resolve. -/
structure Resolve where
  nodes : List Node
  root : Option String
deriving DecidableEq

/-- cargo_metadata::Package (the fields the source reads); source is
Option Source with Source.repr inlined as a String. -/
structure CmPackage where
  id : String
  name : String
  version : String
  source : Option String
deriving DecidableEq

/-- cargo_metadata::Metadata (the fields the source reads). -/
structure Metadata where
  packages : List CmPackage
  resolve : Option Resolve
deriving DecidableEq

/-- The output Package of auditable-serde. -/
structure Package where
  name : String
  version : String
  source : String
  kind : DependencyKind
  dependencies : List Nat
deriving DecidableEq

/-- The output RawVersionInfo of auditable-serde. -/
structure RawVersionInfo where
  packages : List Package
deriving DecidableEq

/-! ### auditable-serde: the graph normalizer -/

/-- Rust Iterator::max step for PrivateDepKind: keeps the later element on
ties (ties can only be equal values here since rank is injective). -/
def pdkMax (a b : PrivateDepKind) : PrivateDepKind :=
  if b.rank < a.rank then a else b

/-- Rust Iterator::max: none on an empty iterator. -/
def iterMaxPdk : List PrivateDepKind → Option PrivateDepKind
  | [] => none
  | k :: rest => some (rest.foldl pdkMax k)

/-- fn strongest_dep_kind: max of the mapped kinds, Runtime when the list
is empty (compatibility with resolvers that report no per-edge kinds). -/
def strongest_dep_kind (deps : List DepKindInfo) : PrivateDepKind :=
  (iterMaxPdk (deps.map (fun d => privDepKindOfCm d.kind))).getD PrivateDepKind.Runtime

/-- fn source_to_source_string: first segment of Source.repr up to a plus
sign, or the literal local sentinel for path or workspace packages. -/
def source_to_source_string : Option String → String
  | some s => (((s.splitOn ("+")).head?).getD (""))
  | none => ("local")

/-- Building id_to_package: insert every package keyed by its identifier. -/
def buildIdToPackage (packages : List CmPackage) : HMap CmPackage :=
  packages.foldl (fun m p => hmInsert p.id p m) []

/-- One step of the edge-kind accumulation:
id_to_dep_kinds.entry(dep.pkg).or_insert(Vec::new()).extend(dep.dep_kinds). -/
def addDepKinds (m : HMap (List DepKindInfo)) (dep : NodeDep) : HMap (List DepKindInfo) :=
  hmInsert dep.pkg (((hmLookup dep.pkg m).getD []) ++ dep.dep_kinds) m

/-- The accumulation loop over every resolve node and every one of its
resolved edges. -/
def buildIdToDepKindLists (nodes : List Node) : HMap (List DepKindInfo) :=
  nodes.foldl (fun m node => node.deps.foldl addDepKinds m) []

/-- id_to_dep_kinds.into_iter().map strongest_dep_kind .collect(). -/
def buildIdToDepKinds (nodes : List Node) : HMap PrivateDepKind :=
  (buildIdToDepKindLists nodes).map (fun e => (e.1, strongest_dep_kind e.2))

/-- The aggregation map after the manual Runtime seeding of the root. -/
def aggKinds (nodes : List Node) (root : String) : HMap PrivateDepKind :=
  hmInsert root PrivateDepKind.Runtime (buildIdToDepKinds nodes)

/-- The tag list one destination accumulates from a single edge list: the
concatenation of dep_kinds over the edges pointing at the identifier. -/
def depTags (deps : List NodeDep) (id : String) : List DepKindInfo :=
  ((deps.filter (fun d => decide (d.pkg = id))).map (fun d => d.dep_kinds)).flatten

/-- The tag list a destination accumulates over every resolve node, in
iteration order: the union of edge-kind tags over all incoming edges. -/
def accTags (nodes : List Node) (id : String) : List DepKindInfo :=
  (nodes.map (fun n => depTags n.deps id)).flatten

/-- Whether any resolve node has an edge pointing at the identifier. -/
def hasEdgeToB (nodes : List Node) (id : String) : Bool :=
  nodes.any (fun n => n.deps.any (fun d => decide (d.pkg = id)))

/-- The filter removing development-only packages; indexing id_to_dep_kinds
with a missing key panics, as in the source. -/
def filterSurvivors (kinds : HMap PrivateDepKind) : List CmPackage → Except RustPanic (List CmPackage)
  | [] => .ok []
  | p :: rest =>
    match hmLookup p.id kinds with
    | none => .error .panicked
    | some k => do
      let rest' ← filterSurvivors kinds rest
      if k = PrivateDepKind.Development then .ok rest' else .ok (p :: rest')

/-- The comparator passed to sort_unstable_by. The middle comparison
reproduces the source verbatim: the variable named versions_order again
compares the names, not the versions. -/
def pkgCmp (a b : CmPackage) : Ordering :=
  let names_order := compare a.name b.name
  if names_order ≠ Ordering.eq then names_order
  else
    let versions_order := compare a.name b.name
    if versions_order ≠ Ordering.eq then versions_order
    else compare a.id b.id

/-- The comparator as a not-greater relation, used for sorting. -/
def pkgLeR (a b : CmPackage) : Prop :=
  pkgCmp a b ≠ Ordering.gt

instance : DecidableRel pkgLeR := fun a b => by
  unfold pkgLeR; infer_instance

/-- The less-or-equal relation on Nat used for
package.dependencies.sort_unstable(). -/
def natLeR (a b : Nat) : Prop :=
  a ≤ b

instance : DecidableRel natLeR := fun a b => by
  unfold natLeR; infer_instance

/-- Building id_to_index from the sorted surviving packages. -/
def buildIdToIndex (sorted : List CmPackage) : HMap Nat :=
  sorted.enum.foldl (fun m e => hmInsert e.2.id e.1 m) []

/-- Conversion of one surviving package to the output representation;
the id_to_dep_kinds index and the kind conversion can panic. -/
def convertPackage (kinds : HMap PrivateDepKind) (p : CmPackage) : Except RustPanic Package :=
  match hmLookup p.id kinds with
  | none => .error .panicked
  | some k => do
    let pk ← dependencyKindOfPrivate k
    .ok { name := p.name, version := p.version,
          source := source_to_source_string p.source,
          kind := pk, dependencies := [] }

/-- Conversion of the whole sorted list. -/
def convertPackages (kinds : HMap PrivateDepKind) (sorted : List CmPackage) : Except RustPanic (List Package) :=
  sorted.mapM (convertPackage kinds)

/-- The inner loop of the dependency fill-in: for every dependency
identifier of a node, skip it when development-only, otherwise push its
output index; both map indexings panic on a missing key. -/
def pushDeps (kinds : HMap PrivateDepKind) (idx : HMap Nat) : List String → List Nat → Except RustPanic (List Nat)
  | [], ds => .ok ds
  | depId :: rest, ds =>
    match hmLookup depId kinds with
    | none => .error .panicked
    | some k =>
      if k = PrivateDepKind.Development then pushDeps kinds idx rest ds
      else
        match hmLookup depId idx with
        | none => .error .panicked
        | some j => pushDeps kinds idx rest (ds ++ [j])

/-- The dependency fill-in for one resolve node: nodes of dropped packages
are skipped, the index list of a surviving package is pushed to and then
sorted ascending. -/
def fillNode (kinds : HMap PrivateDepKind) (idx : HMap Nat) (pkgs : List Package) (node : Node) : Except RustPanic (List Package) :=
  match hmLookup node.id idx with
  | none => .ok pkgs
  | some i =>
    match pkgs[i]? with
    | none => .error .panicked
    | some package => do
      let ds ← pushDeps kinds idx node.dependencies package.dependencies
      .ok (pkgs.set i { package with dependencies := List.insertionSort natLeR ds })

/-- The dependency fill-in loop over all resolve nodes. -/
def fillDeps (kinds : HMap PrivateDepKind) (idx : HMap Nat) (nodes : List Node) (pkgs : List Package) : Except RustPanic (List Package) :=
  nodes.foldlM (fillNode kinds idx) pkgs

/-- metadata.resolve.as_ref().unwrap(): panics when resolution data is absent. -/
def getResolve (metadata : Metadata) : Except RustPanic Resolve :=
  match metadata.resolve with
  | none => .error .panicked
  | some r => .ok r

/-- resolve.root.as_ref().unwrap(): panics when the root is absent. -/
def getRoot (r : Resolve) : Except RustPanic String :=
  match r.root with
  | none => .error .panicked
  | some root => .ok root

/-- impl From of cargo_metadata::Metadata for RawVersionInfo: the whole
graph normalizer. sort_unstable_by is modelled by insertion sort with the
not-greater relation of the source comparator: both produce a
comparator-sorted permutation of the input, and the comparator never ties
on distinct surviving packages, whose identifiers are unique. -/
def from_metadata (metadata : Metadata) : Except RustPanic RawVersionInfo := do
  let id_to_package := buildIdToPackage metadata.packages
  let resolve ← getResolve metadata
  let root ← getRoot resolve
  let id_to_dep_kinds := aggKinds resolve.nodes root
  let survivors ← filterSurvivors id_to_dep_kinds (hmValues id_to_package)
  let sorted := List.insertionSort pkgLeR survivors
  let id_to_index := buildIdToIndex sorted
  let pkgs ← convertPackages id_to_dep_kinds sorted
  let filled ← fillDeps id_to_dep_kinds id_to_index resolve.nodes pkgs
  .ok { packages := filled }

/-- The sorted surviving packages, the prefix of from_metadata before index
assignment; from_metadata factors through this stage (see
from_metadata_eq_stages). -/
def sortedSurvivorsE (metadata : Metadata) : Except RustPanic (List CmPackage) := do
  let resolve ← getResolve metadata
  let root ← getRoot resolve
  let survivors ← filterSurvivors (aggKinds resolve.nodes root)
      (hmValues (buildIdToPackage metadata.packages))
  .ok (List.insertionSort pkgLeR survivors)

/-- The identifier-to-index assignment of the normalizer. -/
def idToIndexE (metadata : Metadata) : Except RustPanic (HMap Nat) :=
  (sortedSurvivorsE metadata).map buildIdToIndex

/-! ### audit-info: bounded extraction pipeline -/

/-- The failure modes of the external embedded-segment extractor
(section 6 of the spec: NotFound when no embedded segment exists,
Malformed when the binary container is unreadable). -/
inductive ExtractError where
  | NotFound
  | Malformed
deriving DecidableEq

/-- The audit-info error type. Modelled from the spec: the taxonomy of
section 7 (the error module of audit-info is not among the sources);
only the variants reachable from the embedded functions are included. -/
inductive Error where
  | InputLimitExceeded
  | OutputLimitExceeded
  | ExtractionFailed (e : ExtractError)
  | DecompressionFailed
deriving DecidableEq

/-- The failure modes of the external bounded inflater (section 6 of the
spec: LimitExceeded or CorruptStream). -/
inductive InflateError where
  | LimitExceeded
  | CorruptStream
deriving DecidableEq

/-- Modelled from the spec: the From conversion of inflater failures into
the audit-info taxonomy (section 7: an exceeded cap during decompression is
OutputLimitExceeded, a corrupt stream is DecompressionFailed). -/
def errorOfInflate : InflateError → Error
  | .LimitExceeded => Error.OutputLimitExceeded
  | .CorruptStream => Error.DecompressionFailed

/-- struct Limits. -/
structure Limits where
  input_file_size : Nat
  decompressed_json_size : Nat
deriving DecidableEq

/-- impl Default for Limits: 1 GiB input, 8 MiB decompressed. -/
def defaultLimits : Limits :=
  { input_file_size := 1024 * 1024 * 1024, decompressed_json_size := 1024 * 1024 * 8 }

/-- The largest u64 value, the saturation point of saturating_add. -/
def u64Max : Nat := 2 ^ 64 - 1

/-- Reader.take(budget).read_to_end: a reader is a list of chunks, one chunk
per read call, an empty chunk being an end-of-stream signal. Reading stops
when the budget is exhausted (take returns zero bytes), at an end-of-stream
signal (read_to_end stops at the first read returning zero bytes), or when
the reader has no further chunks. -/
def takeReadToEnd (budget : Nat) : List (List Nat) → List Nat
  | [] => []
  | c :: rest =>
    if budget = 0 then []
    else if c.length = 0 then []
    else if c.length ≤ budget then c ++ takeReadToEnd (budget - c.length) rest
    else c.take budget

/-- The total number of bytes a source would deliver over all its chunks,
including bytes that resume after a spurious end-of-stream signal. -/
def totalYield (chunks : List (List Nat)) : Nat :=
  (chunks.map List.length).sum

/-- The number of bytes a source delivers before its first end-of-stream
signal. -/
def deliveredBeforeEof : List (List Nat) → Nat
  | [] => 0
  | c :: rest => if c.length = 0 then 0 else c.length + deliveredBeforeEof rest

/-- fn get_compressed_audit_data. The embedded-segment extractor
raw_auditable_data is an opaque function parameter (an external
collaborator per the spec); its failures are wrapped into the taxonomy. -/
def get_compressed_audit_data
    (raw_auditable_data : List Nat → Except ExtractError (List Nat))
    (reader : List (List Nat)) (limits : Limits) : Except Error (List Nat) :=
  let incremented_limit := min (limits.input_file_size + 1) u64Max
  let input_binary := takeReadToEnd incremented_limit reader
  if input_binary.length = incremented_limit then .error Error.InputLimitExceeded
  else
    match raw_auditable_data input_binary with
    | .error e => .error (Error.ExtractionFailed e)
    | .ok compressed_audit_data =>
      if compressed_audit_data.length > limits.decompressed_json_size then
        .error Error.OutputLimitExceeded
      else .ok compressed_audit_data

/-- fn raw_audit_info_from_reader. The zlib inflater is an opaque function
parameter taking the compressed bytes and the decompressed-size cap. -/
def raw_audit_info_from_reader
    (raw_auditable_data : List Nat → Except ExtractError (List Nat))
    (decompress_with_limit : List Nat → Nat → Except InflateError (List Nat))
    (reader : List (List Nat)) (limits : Limits) : Except Error (List Nat) :=
  match get_compressed_audit_data raw_auditable_data reader limits with
  | .error e => .error e
  | .ok compressed_data =>
    match decompress_with_limit compressed_data limits.decompressed_json_size with
    | .error e => .error (errorOfInflate e)
    | .ok data => .ok data

/-- fn raw_audit_info_from_slice. -/
def raw_audit_info_from_slice
    (raw_auditable_data : List Nat → Except ExtractError (List Nat))
    (decompress_with_limit : List Nat → Nat → Except InflateError (List Nat))
    (input_binary : List Nat) (decompressed_json_size_limit : Nat) : Except Error (List Nat) :=
  match raw_auditable_data input_binary with
  | .error e => .error (Error.ExtractionFailed e)
  | .ok compressed_audit_data =>
    if compressed_audit_data.length > decompressed_json_size_limit then
      .error Error.OutputLimitExceeded
    else
      match decompress_with_limit compressed_audit_data decompressed_json_size_limit with
      | .error e => .error (errorOfInflate e)
      | .ok data => .ok data

/-! ### The JSON wire format of RawVersionInfo

The serde derives on RawVersionInfo and Package, at the level of JSON value
trees: serialization omits kind when it equals the default Runtime and
dependencies when empty; deserialization substitutes the defaults for the
missing fields and tolerates unknown fields. -/

/-- A JSON value tree (the fragment this schema uses). -/
inductive Json where
  | str (s : String)
  | num (n : Nat)
  | arr (items : List Json)
  | obj (fields : List (String × Json))

/-- Serialization of the public dependency kind (serde external tagging of
a unit variant: the variant name as a string). -/
def depKindToJson : DependencyKind → Json
  | .Build => Json.str ("Build")
  | .Runtime => Json.str ("Runtime")

/-- Deserialization of the public dependency kind. -/
def depKindFromJson : Json → Option DependencyKind
  | .str s =>
    if s = ("Build") then some DependencyKind.Build
    else if s = ("Runtime") then some DependencyKind.Runtime
    else none
  | _ => none

/-- Serialization of one Package: kind is skipped when it equals the
default, dependencies when empty. -/
def packageToJson (p : Package) : Json :=
  Json.obj
    ([(("name"), Json.str p.name), (("version"), Json.str p.version),
      (("source"), Json.str p.source)]
     ++ (if p.kind = dependencyKindDefault then []
         else [(("kind"), depKindToJson p.kind)])
     ++ (if p.dependencies = [] then []
         else [(("dependencies"), Json.arr (p.dependencies.map Json.num))]))

/-- Field access in a JSON object. -/
def jsonField (fields : List (String × Json)) (name : String) : Option Json :=
  (fields.find? (fun f => decide (f.1 = name))).map (fun f => f.2)

/-- A JSON string payload. -/
def jsonStr : Json → Option String
  | .str s => some s
  | _ => none

/-- A JSON non-negative integer payload. -/
def jsonNat : Json → Option Nat
  | .num n => some n
  | _ => none

/-- Deserialization of one Package: missing kind and dependencies fields
take their defaults; unknown fields are ignored. -/
def packageFromJson : Json → Option Package
  | Json.obj fields => do
    let name ← (jsonField fields ("name")).bind jsonStr
    let version ← (jsonField fields ("version")).bind jsonStr
    let source ← (jsonField fields ("source")).bind jsonStr
    let kind ←
      match jsonField fields ("kind") with
      | none => some dependencyKindDefault
      | some j => depKindFromJson j
    let dependencies ←
      match jsonField fields ("dependencies") with
      | none => some ([] : List Nat)
      | some (Json.arr items) => items.mapM jsonNat
      | some _ => none
    some { name := name, version := version, source := source,
           kind := kind, dependencies := dependencies }
  | _ => none

/-- Serialization of RawVersionInfo: the single packages field. -/
def rawVersionInfoToJson (v : RawVersionInfo) : Json :=
  Json.obj [(("packages"), Json.arr (v.packages.map packageToJson))]

/-- Deserialization of RawVersionInfo. -/
def rawVersionInfoFromJson : Json → Option RawVersionInfo
  | Json.obj fields =>
    match jsonField fields ("packages") with
    | some (Json.arr items) =>
      (items.mapM packageFromJson).map (fun ps => { packages := ps })
    | _ => none
  | _ => none

/-- The data-model invariant: every dependency index is in range. -/
def indicesInRange (v : RawVersionInfo) : Prop :=
  ∀ p ∈ v.packages, ∀ i ∈ p.dependencies, i < v.packages.length

instance (v : RawVersionInfo) : Decidable (indicesInRange v) := by
  unfold indicesInRange
  infer_instance

/-! ### Concrete inputs used by the counterexamples and witnesses -/

instance {ε α : Type} [DecidableEq ε] [DecidableEq α] : DecidableEq (Except ε α) := fun x y =>
  match x, y with
  | .error a, .error b =>
    if h : a = b then .isTrue (by rw [h]) else .isFalse (by intro hc; cases hc; exact h rfl)
  | .ok a, .ok b =>
    if h : a = b then .isTrue (by rw [h]) else .isFalse (by intro hc; cases hc; exact h rfl)
  | .error _, .ok _ => .isFalse (by intro hc; cases hc)
  | .ok _, .error _ => .isFalse (by intro hc; cases hc)

/-- Two packages with the same name, different versions, and identifiers
whose order opposes the version order: the root A at version 2.0.0 and its
runtime dependency B at version 1.0.0. -/
def mdSameName : Metadata :=
  { packages := [
      { id := ("A"), name := ("a"), version := ("2.0.0"), source := none },
      { id := ("B"), name := ("a"), version := ("1.0.0"), source := none }],
    resolve := some {
      nodes := [
        { id := ("A"),
          deps := [{ pkg := ("B"), dep_kinds := [{ kind := CmDependencyKind.Normal }] }],
          dependencies := [("B")] },
        { id := ("B"), deps := [], dependencies := [] }],
      root := some ("A") } }

/-- Metadata whose resolution data is absent entirely. -/
def mdNoResolve : Metadata :=
  { packages := [], resolve := none }

/-- An extractor that finds no embedded segment, used where the extractor
result is irrelevant. -/
def extractNotFound : List Nat → Except ExtractError (List Nat) :=
  fun _ => .error ExtractError.NotFound

/-- A byte source that delivers 7 bytes, signals end-of-stream, then
resumes with 20 further bytes: 27 bytes in total. -/
def spuriousEofSource : List (List Nat) :=
  [List.replicate 7 0, [], List.replicate 20 0]

/-- A 10-byte input cap for the spurious end-of-stream counterexample. -/
def limits10 : Limits :=
  { input_file_size := 10, decompressed_json_size := 99999 }

/-- An extractor that always returns a three-byte payload. -/
def extractConst3 : List Nat → Except ExtractError (List Nat) :=
  fun _ => .ok [0, 0, 0]

/-- An inflater that always fails; it exists to witness that the failing
paths never reach it. -/
def inflateNever : List Nat → Nat → Except InflateError (List Nat) :=
  fun _ _ => .error InflateError.CorruptStream

/-- Two nodes reaching X, once via a Build edge and once via a Normal
(runtime) edge. -/
def nodesC4 : List Node :=
  [{ id := ("R"), deps := [{ pkg := ("X"), dep_kinds := [{ kind := CmDependencyKind.Build }] }],
     dependencies := [("X")] },
   { id := ("S"), deps := [{ pkg := ("X"), dep_kinds := [{ kind := CmDependencyKind.Normal }] }],
     dependencies := [("X")] }]

/-- One node reaching X via an edge carrying no edge-kind tags at all. -/
def nodesC10 : List Node :=
  [{ id := ("R"), deps := [{ pkg := ("X"), dep_kinds := [] }], dependencies := [("X")] }]

/-- A canonical model exercising both omissions and both presences: one
package with the default Runtime kind and no dependencies, one with a Build
kind and a nonempty in-range dependency list. -/
def vRoundTrip : RawVersionInfo :=
  { packages := [
      { name := ("a"), version := ("1.0.0"), source := ("local"),
        kind := DependencyKind.Runtime, dependencies := [] },
      { name := ("b"), version := ("0.2.1"), source := ("registry"),
        kind := DependencyKind.Build, dependencies := [0] }] }

/-- The sorted surviving packages of mdSameName. -/
def sortedSameName : List CmPackage :=
  [{ id := ("A"), name := ("a"), version := ("2.0.0"), source := none },
   { id := ("B"), name := ("a"), version := ("1.0.0"), source := none }]

/-- The normalizer output on mdSameName. -/
def outSameName : RawVersionInfo :=
  { packages := [
      { name := ("a"), version := ("2.0.0"), source := ("local"),
        kind := DependencyKind.Runtime, dependencies := [1] },
      { name := ("a"), version := ("1.0.0"), source := ("local"),
        kind := DependencyKind.Runtime, dependencies := [] }] }

/-- A resolve tree whose root reaches D by a development edge only and B by
a runtime edge. -/
def resolveDev : Resolve :=
  { nodes := [
      { id := ("R"),
        deps := [{ pkg := ("D"), dep_kinds := [{ kind := CmDependencyKind.Development }] },
                 { pkg := ("B"), dep_kinds := [{ kind := CmDependencyKind.Normal }] }],
        dependencies := [("D"), ("B")] },
      { id := ("D"), deps := [], dependencies := [] },
      { id := ("B"), deps := [], dependencies := [] }],
    root := some ("R") }

/-- Metadata with a development-only package D next to surviving R and B. -/
def mdDev : Metadata :=
  { packages := [
      { id := ("R"), name := ("r"), version := ("1.0.0"), source := none },
      { id := ("D"), name := ("d"), version := ("1.0.0"), source := none },
      { id := ("B"), name := ("b"), version := ("1.0.0"), source := none }],
    resolve := some resolveDev }

/-- The sorted surviving packages of mdDev: D is gone. -/
def sortedDev : List CmPackage :=
  [{ id := ("B"), name := ("b"), version := ("1.0.0"), source := none },
   { id := ("R"), name := ("r"), version := ("1.0.0"), source := none }]

/-- The normalizer output on mdDev. -/
def outDev : RawVersionInfo :=
  { packages := [
      { name := ("b"), version := ("1.0.0"), source := ("local"),
        kind := DependencyKind.Runtime, dependencies := [] },
      { name := ("r"), version := ("1.0.0"), source := ("local"),
        kind := DependencyKind.Runtime, dependencies := [0] }] }

/-- One resolve node up to reordering of its edge list and its dependency
identifier list. -/
def NodeEquiv (n' n : Node) : Prop :=
  n'.id = n.id ∧ List.Perm n'.deps n.deps ∧ List.Perm n'.dependencies n.dependencies


/-- A resolve node list up to reordering of the nodes and, per node, of its
edge and dependency lists: the same raw graph in a different insertion
order. -/
def NodesEquiv (l' l : List Node) : Prop :=
  ∃ l₀, List.Perm l' l₀ ∧ List.Forall₂ NodeEquiv l₀ l

/-- Whether every dependency identifier of a node passes the fill-in
lookups (the success condition of pushDeps). -/
def pushOkB (kinds : HMap PrivateDepKind) (idx : HMap Nat) (dl : List String) : Bool :=
  dl.all (fun d =>
    match hmLookup d kinds with
    | none => false
    | some k => decide (k = PrivateDepKind.Development) || (hmLookup d idx).isSome)


/-- The index list the fill-in loop pushes for a dependency identifier
list, in order. -/
def pushList (kinds : HMap PrivateDepKind) (idx : HMap Nat) (dl : List String) : List Nat :=
  dl.filterMap (fun d =>
    match hmLookup d kinds with
    | none => none
    | some k => if k = PrivateDepKind.Development then none else hmLookup d idx)

/-- The node R of resolveDev with its edge list and dependency list
reordered. -/
def nodeRPerm : Node :=
  { id := ("R"),
    deps := [{ pkg := ("B"), dep_kinds := [{ kind := CmDependencyKind.Normal }] },
             { pkg := ("D"), dep_kinds := [{ kind := CmDependencyKind.Development }] }],
    dependencies := [("B"), ("D")] }

def resolveDevPerm : Resolve :=
  { nodes := [
      { id := ("B"), deps := [], dependencies := [] },
      { id := ("D"), deps := [], dependencies := [] },
      nodeRPerm],
    root := some ("R") }

def mdDevPerm : Metadata :=
  { packages := [
      { id := ("D"), name := ("d"), version := ("1.0.0"), source := none },
      { id := ("B"), name := ("b"), version := ("1.0.0"), source := none },
      { id := ("R"), name := ("r"), version := ("1.0.0"), source := none }],
    resolve := some resolveDevPerm }

/-! ### Theorems: the graph normalizer on its concrete failing inputs -/

/-- C1, the divergence at the failing input: on two surviving packages with
equal names, versions 2.0.0 and 1.0.0, and opaque identifiers ordering the
2.0.0 package first, the normalizer emits version 2.0.0 before 1.0.0. For
equal names the output order is decided by the opaque identifier and never
by the version, because the comparator compares the names a second time
(into the variable named versions_order) where the versions were meant. -/
theorem normalizer_equal_names_ordered_by_id_not_version :
    (from_metadata mdSameName).map (fun v => v.packages.map Package.version) =
      .ok [("2.0.0"), ("1.0.0")] ∧
    (mdSameName.packages.map CmPackage.version) = [("2.0.0"), ("1.0.0")] ∧
    (mdSameName.packages.map CmPackage.name) = [("a"), ("a")] :=
  ⟨by decide, by decide, by decide⟩

/-- C2, the divergence at the failing input: on metadata whose resolution
data is absent entirely, the normalizer panics (unwrap on None) instead of
returning an InconsistentGraph error value to its caller. -/
theorem normalizer_panics_on_missing_resolve :
    from_metadata mdNoResolve = .error RustPanic.panicked := rfl

/-! ### Theorems: the extraction pipeline limits -/

theorem takeReadToEnd_length (chunks : List (List Nat)) (budget : Nat) :
    (takeReadToEnd budget chunks).length = min budget (deliveredBeforeEof chunks) := by
  induction chunks generalizing budget with
  | nil => simp [takeReadToEnd, deliveredBeforeEof]
  | cons c rest ih =>
    unfold takeReadToEnd deliveredBeforeEof
    by_cases hb : budget = 0
    · simp [hb]
    · by_cases hc : c.length = 0
      · simp [hb, hc]
      · by_cases hle : c.length ≤ budget
        · simp only [if_neg hb, if_neg hc, if_pos hle, List.length_append, ih]
          omega
        · simp only [if_neg hb, if_neg hc, if_neg hle, List.length_take]
          omega

theorem deliveredBeforeEof_le_totalYield (chunks : List (List Nat)) :
    deliveredBeforeEof chunks ≤ totalYield chunks := by
  induction chunks with
  | nil => simp [deliveredBeforeEof, totalYield]
  | cons c rest ih =>
    unfold deliveredBeforeEof
    simp only [totalYield, List.map_cons, List.sum_cons] at *
    by_cases hc : c.length = 0
    · simp [hc]
    · simp only [if_neg hc]
      omega

/-- C3, counterexample to the claim as stated: a source that delivers 7
bytes, signals end-of-stream, then resumes with 20 further bytes yields 27
bytes in total, strictly more than the 10-byte input_file_size, yet
get_compressed_audit_data does not fail with InputLimitExceeded: read_to_end
stops at the first end-of-stream signal, so the bytes that resume after a
spurious signal are never observed. -/
theorem input_limit_spurious_eof_counterexample :
    totalYield spuriousEofSource > limits10.input_file_size ∧
    get_compressed_audit_data extractNotFound spuriousEofSource limits10 ≠
      Except.error Error.InputLimitExceeded :=
  ⟨by decide, by decide⟩

/-- C3 as amended: a source whose bytes delivered before its first
end-of-stream signal exceed limits.input_file_size makes
get_compressed_audit_data (and raw_audit_info_from_reader) fail with
InputLimitExceeded, however the bytes are chunked; and for every source
yielding at most limits.input_file_size bytes in total, InputLimitExceeded
is never raised, provided input_file_size is below the u64 saturation
point of the limit-plus-one computation. -/
theorem input_limit_amended :
    (∀ (extract : List Nat → Except ExtractError (List Nat)) (chunks : List (List Nat)) (limits : Limits),
      limits.input_file_size < deliveredBeforeEof chunks →
        get_compressed_audit_data extract chunks limits = .error Error.InputLimitExceeded ∧
        ∀ inflate, raw_audit_info_from_reader extract inflate chunks limits = .error Error.InputLimitExceeded) ∧
    (∀ (extract : List Nat → Except ExtractError (List Nat)) (chunks : List (List Nat)) (limits : Limits),
      totalYield chunks ≤ limits.input_file_size → limits.input_file_size < u64Max →
        get_compressed_audit_data extract chunks limits ≠ .error Error.InputLimitExceeded ∧
        ∀ inflate, raw_audit_info_from_reader extract inflate chunks limits ≠ .error Error.InputLimitExceeded) := by
  constructor
  · intro extract chunks limits h
    have hlen := takeReadToEnd_length chunks (min (limits.input_file_size + 1) u64Max)
    have hcond : (takeReadToEnd (min (limits.input_file_size + 1) u64Max) chunks).length =
        min (limits.input_file_size + 1) u64Max := by
      rw [hlen]
      have h1 : min (limits.input_file_size + 1) u64Max ≤ deliveredBeforeEof chunks := by
        have := Nat.min_le_left (limits.input_file_size + 1) u64Max
        omega
      omega
    have hg : get_compressed_audit_data extract chunks limits = .error Error.InputLimitExceeded := by
      unfold get_compressed_audit_data
      rw [if_pos hcond]
    refine ⟨hg, fun inflate => ?_⟩
    unfold raw_audit_info_from_reader
    simp only [hg]
  · intro extract chunks limits h hmax
    have hdbe := deliveredBeforeEof_le_totalYield chunks
    have hlen := takeReadToEnd_length chunks (min (limits.input_file_size + 1) u64Max)
    have hcond : ¬ ((takeReadToEnd (min (limits.input_file_size + 1) u64Max) chunks).length =
        min (limits.input_file_size + 1) u64Max) := by
      rw [hlen]
      have : min (limits.input_file_size + 1) u64Max = limits.input_file_size + 1 := by omega
      omega
    have hg : get_compressed_audit_data extract chunks limits ≠ .error Error.InputLimitExceeded := by
      unfold get_compressed_audit_data
      rw [if_neg hcond]
      cases hx : extract (takeReadToEnd (min (limits.input_file_size + 1) u64Max) chunks) with
      | error e => simp
      | ok data =>
        by_cases hd : data.length > limits.decompressed_json_size
        · simp [hd]
        · simp [hd]
    refine ⟨hg, fun inflate => ?_⟩
    unfold raw_audit_info_from_reader
    cases hc2 : get_compressed_audit_data extract chunks limits with
    | error e =>
      simp only [hc2]
      intro hcontra
      cases hcontra
      exact hg hc2
    | ok data =>
      simp only [hc2]
      cases hinf : inflate data limits.decompressed_json_size with
      | error e => simp only [hinf]; cases e <;> decide
      | ok d => simp only [hinf]; simp

/-- Witness for C3 as amended: a three-byte source over a two-byte cap
fails with InputLimitExceeded; a two-byte source at the cap does not. -/
theorem input_limit_amended_witness :
    get_compressed_audit_data extractNotFound [[1, 2, 3]] { input_file_size := 2, decompressed_json_size := 10 } =
      .error Error.InputLimitExceeded ∧
    get_compressed_audit_data extractNotFound [[1, 2]] { input_file_size := 2, decompressed_json_size := 10 } ≠
      .error Error.InputLimitExceeded :=
  ⟨(input_limit_amended.1 extractNotFound [[1, 2, 3]] _ (by decide)).1,
   (input_limit_amended.2 extractNotFound [[1, 2]] _ (by decide) (by decide)).1⟩

/-- C8: whenever the embedded-segment extractor returns a payload longer
than the decompressed-size cap, get_compressed_audit_data (given its input
size check passed) and raw_audit_info_from_slice fail with
OutputLimitExceeded; the result holds for every inflater, so no
decompression is ever consulted. -/
theorem output_precheck_before_inflation :
    (∀ (extract : List Nat → Except ExtractError (List Nat)) (reader : List (List Nat))
       (limits : Limits) (data : List Nat),
      (takeReadToEnd (min (limits.input_file_size + 1) u64Max) reader).length ≠
          min (limits.input_file_size + 1) u64Max →
      extract (takeReadToEnd (min (limits.input_file_size + 1) u64Max) reader) = .ok data →
      data.length > limits.decompressed_json_size →
      get_compressed_audit_data extract reader limits = .error Error.OutputLimitExceeded) ∧
    (∀ (extract : List Nat → Except ExtractError (List Nat))
       (inflate : List Nat → Nat → Except InflateError (List Nat))
       (input : List Nat) (lim : Nat) (data : List Nat),
      extract input = .ok data →
      data.length > lim →
      raw_audit_info_from_slice extract inflate input lim = .error Error.OutputLimitExceeded) := by
  constructor
  · intro extract reader limits data h1 h2 h3
    unfold get_compressed_audit_data
    rw [if_neg h1]
    simp only [h2]
    rw [if_pos h3]
  · intro extract inflate input lim data h1 h2
    unfold raw_audit_info_from_slice
    simp only [h1]
    rw [if_pos h2]

/-- Witness for C8: a three-byte extracted payload over a two-byte
decompressed cap fails with OutputLimitExceeded in both functions. -/
theorem output_precheck_before_inflation_witness :
    get_compressed_audit_data extractConst3 [[5]] { input_file_size := 3, decompressed_json_size := 2 } =
      .error Error.OutputLimitExceeded ∧
    raw_audit_info_from_slice extractConst3 inflateNever [] 2 = .error Error.OutputLimitExceeded :=
  ⟨output_precheck_before_inflation.1 extractConst3 [[5]]
      { input_file_size := 3, decompressed_json_size := 2 } [0, 0, 0] (by decide) (by decide) (by decide),
   output_precheck_before_inflation.2 extractConst3 inflateNever [] 2 [0, 0, 0] (by decide) (by decide)⟩

/-! ### Theorems: edge-kind aggregation -/

theorem hmLookup_erase_ne {α : Type} (k k' : String) (m : HMap α) (h : k' ≠ k) :
    hmLookup k' (hmErase k m) = hmLookup k' m := by
  have hkk : ¬ (k = k') := fun hc => h hc.symm
  induction m with
  | nil => rfl
  | cons e rest ih =>
    by_cases he : e.1 = k
    · have h2 : ¬ (e.1 = k') := by
        intro hc
        exact h (by rw [← hc, he])
      simp [hmErase, hmLookup, he, h2, hkk, ih]
    · by_cases h2 : e.1 = k'
      · simp [hmErase, hmLookup, he, h2, hkk, fun hc => h hc, ih]
      · simp [hmErase, hmLookup, he, h2, hkk, ih]

theorem hmLookup_insert_self {α : Type} (k : String) (v : α) (m : HMap α) :
    hmLookup k (hmInsert k v m) = some v := by
  simp [hmInsert, hmLookup]

theorem hmLookup_insert_ne {α : Type} (k k' : String) (v : α) (m : HMap α) (h : k' ≠ k) :
    hmLookup k' (hmInsert k v m) = hmLookup k' m := by
  have h2 : ¬ ((k, v).1 = k') := fun hc => h hc.symm
  simp only [hmInsert, hmLookup, h2, if_false]
  exact hmLookup_erase_ne k k' m h

theorem hmLookup_map {α β : Type} (k : String) (f : α → β) (m : HMap α) :
    hmLookup k (List.map (fun e => (e.1, f e.2)) m) = (hmLookup k m).map f := by
  induction m with
  | nil => rfl
  | cons e rest ih =>
    by_cases hp : e.1 = k
    · simp [hmLookup, hp]
    · simp [hmLookup, hp, ih]

theorem depsFold_lookup (deps : List NodeDep) (m : HMap (List DepKindInfo)) (id : String) :
    hmLookup id (deps.foldl addDepKinds m) =
      if deps.any (fun d => decide (d.pkg = id)) then
        some (((hmLookup id m).getD []) ++ depTags deps id)
      else hmLookup id m := by
  induction deps generalizing m with
  | nil => simp [depTags]
  | cons d rest ih =>
    rw [List.foldl_cons, ih]
    by_cases hd : d.pkg = id
    · have hlk : hmLookup id (addDepKinds m d) =
          some (((hmLookup d.pkg m).getD []) ++ d.dep_kinds) := by
        unfold addDepKinds
        rw [hd, hmLookup_insert_self]
      by_cases hr : rest.any (fun d => decide (d.pkg = id)) = true
      · simp only [List.any_cons, hd, decide_True, Bool.true_or, if_true, hr, if_pos rfl, hlk]
        simp [depTags, hd, List.filter_cons, List.append_assoc]
      · simp only [List.any_cons, hd, decide_True, Bool.true_or, if_true, hr, if_false, hlk]
        have : depTags rest id = [] := by
          unfold depTags
          rw [List.filter_eq_nil_iff.mpr]
          · rfl
          · intro x hx
            simp only [decide_eq_true_eq]
            intro hc
            exact hr (List.any_eq_true.mpr ⟨x, hx, by simp [hc]⟩)
        have hdt : depTags (d :: rest) id = d.dep_kinds ++ depTags rest id := by
          simp [depTags, List.filter_cons, hd]
        rw [hdt, this]
        simp
    · have hlk : hmLookup id (addDepKinds m d) = hmLookup id m := by
        unfold addDepKinds
        exact hmLookup_insert_ne d.pkg id _ m (fun hc => hd hc.symm)
      have hdt : depTags (d :: rest) id = depTags rest id := by
        simp [depTags, List.filter_cons, hd]
      simp only [List.any_cons, hd, decide_False, Bool.false_or, hlk, hdt]

theorem nodesFold_lookup (nodes : List Node) (m : HMap (List DepKindInfo)) (id : String) :
    hmLookup id (nodes.foldl (fun m node => node.deps.foldl addDepKinds m) m) =
      if hasEdgeToB nodes id then
        some (((hmLookup id m).getD []) ++ accTags nodes id)
      else hmLookup id m := by
  induction nodes generalizing m with
  | nil => simp [hasEdgeToB, accTags]
  | cons n rest ih =>
    rw [List.foldl_cons, ih]
    have hinner := depsFold_lookup n.deps m id
    by_cases hn : n.deps.any (fun d => decide (d.pkg = id)) = true
    · rw [if_pos hn] at hinner
      by_cases hr : hasEdgeToB rest id = true
      · rw [if_pos hr, hinner]
        have : hasEdgeToB (n :: rest) id = true := by
          simp [hasEdgeToB] at *
          exact Or.inl hn
        rw [if_pos this]
        simp [accTags, depTags, List.append_assoc]
      · rw [if_neg hr, hinner]
        have : hasEdgeToB (n :: rest) id = true := by
          simp [hasEdgeToB] at *
          exact Or.inl hn
        rw [if_pos this]
        have hacc : accTags rest id = [] := by
          unfold accTags
          rw [List.flatten_eq_nil_iff.mpr]
          intro l hl
          rw [List.mem_map] at hl
          obtain ⟨nd, hnd, hndl⟩ := hl
          have : ¬ (nd.deps.any (fun d => decide (d.pkg = id)) = true) := by
            intro hc
            exact hr (by simp [hasEdgeToB]; exact ⟨nd, hnd, by simpa using hc⟩)
          have : depTags nd.deps id = [] := by
            unfold depTags
            rw [List.filter_eq_nil_iff.mpr]
            · rfl
            · intro x hx
              simp only [decide_eq_true_eq]
              intro hc
              exact this (List.any_eq_true.mpr ⟨x, hx, by simp [hc]⟩)
          rw [← hndl, this]
        have h1 : accTags (n :: rest) id = depTags n.deps id ++ accTags rest id := by
          simp [accTags]
        rw [h1, hacc, List.append_nil]
    · rw [if_neg hn] at hinner
      rw [hinner]
      have hdt : depTags n.deps id = [] := by
        unfold depTags
        rw [List.filter_eq_nil_iff.mpr]
        · rfl
        · intro x hx
          simp only [decide_eq_true_eq]
          intro hc
          exact hn (List.any_eq_true.mpr ⟨x, hx, by simp [hc]⟩)
      have hedge : hasEdgeToB (n :: rest) id = hasEdgeToB rest id := by
        simp [hasEdgeToB, List.any_cons, hn]
      have hacc : accTags (n :: rest) id = accTags rest id := by
        simp [accTags, hdt]
      rw [hedge, hacc]

theorem buildIdToDepKindLists_lookup (nodes : List Node) (id : String) :
    hmLookup id (buildIdToDepKindLists nodes) =
      if hasEdgeToB nodes id then some (accTags nodes id) else none := by
  have := nodesFold_lookup nodes [] id
  unfold buildIdToDepKindLists
  rw [this]
  rfl

theorem buildIdToDepKinds_lookup (nodes : List Node) (id : String) :
    hmLookup id (buildIdToDepKinds nodes) =
      if hasEdgeToB nodes id then some (strongest_dep_kind (accTags nodes id)) else none := by
  unfold buildIdToDepKinds
  rw [hmLookup_map, buildIdToDepKindLists_lookup]
  by_cases h : hasEdgeToB nodes id = true
  · rw [if_pos h, if_pos h]
    rfl
  · rw [if_neg h, if_neg h]
    rfl

theorem aggKinds_lookup_root (nodes : List Node) (root : String) :
    hmLookup root (aggKinds nodes root) = some PrivateDepKind.Runtime := by
  unfold aggKinds
  exact hmLookup_insert_self root _ _

theorem aggKinds_lookup_ne (nodes : List Node) (root id : String) (h : id ≠ root) :
    hmLookup id (aggKinds nodes root) =
      if hasEdgeToB nodes id then some (strongest_dep_kind (accTags nodes id)) else none := by
  unfold aggKinds
  rw [hmLookup_insert_ne root id _ _ h, buildIdToDepKinds_lookup]

theorem pdkMax_rank (a b : PrivateDepKind) : (pdkMax a b).rank = max a.rank b.rank := by
  cases a <;> cases b <;> rfl

theorem pdkMax_eq_or (a b : PrivateDepKind) : pdkMax a b = a ∨ pdkMax a b = b := by
  unfold pdkMax
  by_cases h : b.rank < a.rank
  · exact Or.inl (if_pos h)
  · exact Or.inr (if_neg h)

theorem foldl_pdkMax_mem (l : List PrivateDepKind) (k : PrivateDepKind) :
    List.foldl pdkMax k l = k ∨ List.foldl pdkMax k l ∈ l := by
  induction l generalizing k with
  | nil => exact Or.inl rfl
  | cons x rest ih =>
    rw [List.foldl_cons]
    rcases ih (pdkMax k x) with h | h
    · rcases pdkMax_eq_or k x with h2 | h2
      · rw [h, h2]
        exact Or.inl rfl
      · rw [h, h2]
        exact Or.inr (List.mem_cons_self x rest)
    · exact Or.inr (List.mem_cons_of_mem x h)

theorem rank_le_foldl_pdkMax_init (l : List PrivateDepKind) (k : PrivateDepKind) :
    k.rank ≤ (List.foldl pdkMax k l).rank := by
  induction l generalizing k with
  | nil => exact Nat.le_refl _
  | cons x rest ih =>
    rw [List.foldl_cons]
    have h1 : k.rank ≤ (pdkMax k x).rank := by
      rw [pdkMax_rank]
      exact Nat.le_max_left _ _
    exact Nat.le_trans h1 (ih (pdkMax k x))

theorem rank_le_foldl_pdkMax_mem (l : List PrivateDepKind) (k : PrivateDepKind) :
    ∀ t ∈ l, t.rank ≤ (List.foldl pdkMax k l).rank := by
  induction l generalizing k with
  | nil => intro t ht; cases ht
  | cons x rest ih =>
    intro t ht
    rw [List.foldl_cons]
    rcases List.mem_cons.mp ht with h | h
    · have h1 : t.rank ≤ (pdkMax k x).rank := by
        rw [h, pdkMax_rank]
        exact Nat.le_max_right _ _
      exact Nat.le_trans h1 (rank_le_foldl_pdkMax_init rest (pdkMax k x))
    · exact ih (pdkMax k x) t h

theorem strongest_dep_kind_spec (deps : List DepKindInfo) (hne : deps ≠ []) :
    strongest_dep_kind deps ∈ deps.map (fun d => privDepKindOfCm d.kind) ∧
    ∀ t ∈ deps.map (fun d => privDepKindOfCm d.kind), t.rank ≤ (strongest_dep_kind deps).rank := by
  cases hd : deps with
  | nil => exact absurd hd hne
  | cons d rest =>
    unfold strongest_dep_kind iterMaxPdk
    simp only [List.map_cons, Option.getD_some]
    constructor
    · rcases foldl_pdkMax_mem (rest.map (fun d => privDepKindOfCm d.kind)) (privDepKindOfCm d.kind) with h | h
      · rw [h]
        exact List.mem_cons_self _ _
      · exact List.mem_cons_of_mem _ h
    · intro t ht
      rcases List.mem_cons.mp ht with h | h
      · rw [h]
        exact rank_le_foldl_pdkMax_init _ _
      · exact rank_le_foldl_pdkMax_mem _ _ t h

theorem accTags_ne_nil_hasEdge (nodes : List Node) (id : String)
    (h : accTags nodes id ≠ []) : hasEdgeToB nodes id = true := by
  by_contra hc
  apply h
  unfold accTags
  rw [List.flatten_eq_nil_iff.mpr]
  intro l hl
  rw [List.mem_map] at hl
  obtain ⟨n, hn, hnl⟩ := hl
  have hnodep : ¬ (n.deps.any (fun d => decide (d.pkg = id)) = true) := by
    intro hany
    exact hc (by simp [hasEdgeToB]; exact ⟨n, hn, by simpa using hany⟩)
  have : depTags n.deps id = [] := by
    unfold depTags
    rw [List.filter_eq_nil_iff.mpr]
    · rfl
    · intro x hx
      simp only [decide_eq_true_eq]
      intro hcx
      exact hnodep (List.any_eq_true.mpr ⟨x, hx, by simp [hcx]⟩)
  rw [← hnl, this]

/-- C4: for every non-root identifier with a nonempty accumulated tag
list, the aggregation map holds exactly the strongest tag (by rank, under
Development before Build before Runtime) among the union of all edge-kind
tags over all incoming edges from every resolve node; the root is seeded
with Runtime; and a node reached once via a Build edge and once via a
runtime edge resolves to Runtime. -/
theorem aggregate_kind_is_strongest (nodes : List Node) (root id : String)
    (hne : id ≠ root) (ht : accTags nodes id ≠ []) :
    (∃ k, hmLookup id (aggKinds nodes root) = some k ∧
       k ∈ (accTags nodes id).map (fun d => privDepKindOfCm d.kind) ∧
       ∀ t ∈ (accTags nodes id).map (fun d => privDepKindOfCm d.kind), t.rank ≤ k.rank) ∧
    hmLookup root (aggKinds nodes root) = some PrivateDepKind.Runtime ∧
    strongest_dep_kind [{ kind := CmDependencyKind.Build }, { kind := CmDependencyKind.Normal }] =
      PrivateDepKind.Runtime := by
  refine ⟨?_, aggKinds_lookup_root nodes root, by decide⟩
  have hedge := accTags_ne_nil_hasEdge nodes id ht
  have hs := strongest_dep_kind_spec (accTags nodes id) ht
  refine ⟨strongest_dep_kind (accTags nodes id), ?_, hs.1, hs.2⟩
  rw [aggKinds_lookup_ne nodes root id hne, if_pos hedge]

/-- Witness for C4 at the two-node example. -/
theorem aggregate_kind_is_strongest_witness :
    ("X" : String) ≠ ("R") ∧ accTags nodesC4 ("X") ≠ [] ∧
    (∃ k, hmLookup ("X") (aggKinds nodesC4 ("R")) = some k ∧
       k ∈ (accTags nodesC4 ("X")).map (fun d => privDepKindOfCm d.kind) ∧
       ∀ t ∈ (accTags nodesC4 ("X")).map (fun d => privDepKindOfCm d.kind), t.rank ≤ k.rank) ∧
    hmLookup ("R") (aggKinds nodesC4 ("R")) = some PrivateDepKind.Runtime ∧
    strongest_dep_kind [{ kind := CmDependencyKind.Build }, { kind := CmDependencyKind.Normal }] =
      PrivateDepKind.Runtime :=
  ⟨by decide, by decide, aggregate_kind_is_strongest nodesC4 ("R") ("X") (by decide) (by decide)⟩

/-- C10: a non-root identifier that has at least one incoming edge but an
empty accumulated tag list (resolvers predating per-edge kind reporting) is
assigned aggregate kind Runtime, exactly like strongest_dep_kind on an
empty list; it is neither dropped nor treated as Development. -/
theorem empty_tag_set_defaults_to_runtime (nodes : List Node) (root id : String)
    (hne : id ≠ root) (hedge : hasEdgeToB nodes id = true) (hempty : accTags nodes id = []) :
    hmLookup id (aggKinds nodes root) = some PrivateDepKind.Runtime ∧
    strongest_dep_kind [] = PrivateDepKind.Runtime := by
  refine ⟨?_, rfl⟩
  rw [aggKinds_lookup_ne nodes root id hne, if_pos hedge, hempty]
  rfl

/-- Witness for C10 at the one-edge example. -/
theorem empty_tag_set_defaults_to_runtime_witness :
    hmLookup ("X") (aggKinds nodesC10 ("R")) = some PrivateDepKind.Runtime ∧
    strongest_dep_kind [] = PrivateDepKind.Runtime :=
  empty_tag_set_defaults_to_runtime nodesC10 ("R") ("X") (by decide) (by decide) (by decide)

/-! ### Theorems: the JSON wire format -/

theorem depKindFromJson_toJson (k : DependencyKind) :
    depKindFromJson (depKindToJson k) = some k := by
  cases k <;> rfl

theorem mapM_loop_jsonNat (l : List Nat) (acc : List Nat) :
    List.mapM.loop jsonNat (l.map Json.num) acc = some (acc.reverse ++ l) := by
  induction l generalizing acc with
  | nil => simp [List.mapM.loop]
  | cons n rest ih =>
    rw [List.map_cons]
    unfold List.mapM.loop
    simp [jsonNat, ih]

theorem mapM_jsonNat (l : List Nat) :
    (l.map Json.num).mapM jsonNat = some l := by
  unfold List.mapM
  rw [mapM_loop_jsonNat]
  rfl

theorem packageFromJson_toJson (p : Package) :
    packageFromJson (packageToJson p) = some p := by
  cases p with
  | mk name version source kind dependencies =>
    by_cases hk : kind = dependencyKindDefault
    · by_cases hd : dependencies = []
      · simp_all [packageToJson, packageFromJson, jsonField, jsonStr, dependencyKindDefault]
      · simp_all [packageToJson, packageFromJson, jsonField, jsonStr, mapM_loop_jsonNat,
          dependencyKindDefault]
    · by_cases hd : dependencies = []
      · simp_all [packageToJson, packageFromJson, jsonField, jsonStr, depKindFromJson_toJson,
          dependencyKindDefault]
      · simp_all [packageToJson, packageFromJson, jsonField, jsonStr, depKindFromJson_toJson,
          mapM_loop_jsonNat, dependencyKindDefault]

theorem mapM_loop_packageFromJson (l : List Package) (acc : List Package) :
    List.mapM.loop packageFromJson (l.map packageToJson) acc = some (acc.reverse ++ l) := by
  induction l generalizing acc with
  | nil => simp [List.mapM.loop]
  | cons p rest ih =>
    rw [List.map_cons]
    unfold List.mapM.loop
    simp [packageFromJson_toJson, ih]

/-- C7: serializing a canonical model with in-range dependency indices to
the JSON value tree and deserializing it back yields an equal model,
including when kind equals the default Runtime (omitted) and when
dependencies is empty (omitted). -/
theorem json_round_trip (v : RawVersionInfo) (hinv : indicesInRange v) :
    rawVersionInfoFromJson (rawVersionInfoToJson v) = some v := by
  unfold rawVersionInfoToJson rawVersionInfoFromJson
  simp [jsonField, mapM_loop_packageFromJson]

/-- Witness for C7 at a model with both an omitted-default package and a
Build package with a nonempty dependency list. -/
theorem json_round_trip_witness :
    indicesInRange vRoundTrip ∧
    rawVersionInfoFromJson (rawVersionInfoToJson vRoundTrip) = some vRoundTrip :=
  ⟨by decide, json_round_trip vRoundTrip (by decide)⟩

/-! ### Theorems: the normalizer pipeline on successful runs -/

theorem exceptMapM_loop_ok {α β : Type} (f : α → Except RustPanic β) :
    ∀ (l : List α) (acc out : List β),
      List.mapM.loop f l acc = .ok out →
      ∃ t, out = acc.reverse ++ t ∧ List.Forall₂ (fun a b => f a = .ok b) l t := by
  intro l
  induction l with
  | nil =>
    intro acc out h
    refine ⟨[], ?_, List.Forall₂.nil⟩
    unfold List.mapM.loop at h
    cases h
    simp
  | cons x xs ih =>
    intro acc out h
    unfold List.mapM.loop at h
    cases hx : f x with
    | error e => rw [hx] at h; cases h
    | ok y =>
      rw [hx] at h
      have h2 : List.mapM.loop f xs (y :: acc) = .ok out := h
      obtain ⟨t, ht, hf⟩ := ih (y :: acc) out h2
      refine ⟨y :: t, ?_, List.Forall₂.cons hx hf⟩
      rw [ht]
      simp

theorem exceptMapM_ok {α β : Type} (f : α → Except RustPanic β) (l : List α) (out : List β)
    (h : l.mapM f = .ok out) : List.Forall₂ (fun a b => f a = .ok b) l out := by
  unfold List.mapM at h
  obtain ⟨t, ht, hf⟩ := exceptMapM_loop_ok f l [] out h
  simpa [ht] using hf

theorem filterSurvivors_ok_eq (kinds : HMap PrivateDepKind) :
    ∀ (l s : List CmPackage), filterSurvivors kinds l = .ok s →
      s = l.filter (fun p => decide (hmLookup p.id kinds ≠ some PrivateDepKind.Development)) := by
  intro l
  induction l with
  | nil =>
    intro s h
    cases h
    rfl
  | cons p rest ih =>
    intro s h
    unfold filterSurvivors at h
    cases hk : hmLookup p.id kinds with
    | none => rw [hk] at h; cases h
    | some k =>
      rw [hk] at h
      cases hrest : filterSurvivors kinds rest with
      | error e =>
        rw [hrest] at h
        have h2 : (Except.error RustPanic.panicked : Except RustPanic (List CmPackage)) = .ok s := h
        cases h2
      | ok rest' =>
        rw [hrest] at h
        have h2 : (if k = PrivateDepKind.Development then Except.ok rest'
            else Except.ok (p :: rest')) = .ok s := h
        rw [List.filter_cons]
        by_cases hdev : k = PrivateDepKind.Development
        · rw [if_pos hdev] at h2
          injection h2 with h3
          subst h3
          have hp : (decide (hmLookup p.id kinds ≠ some PrivateDepKind.Development)) = false := by
            simp [hk, hdev]
          rw [hp]
          simp only [Bool.false_eq_true, if_false]
          exact ih rest' hrest
        · rw [if_neg hdev] at h2
          injection h2 with h3
          subst h3
          have hp : (decide (hmLookup p.id kinds ≠ some PrivateDepKind.Development)) = true := by
            simp [hk]
            intro hc
            exact hdev hc
          rw [hp]
          simp only [if_true]
          rw [ih rest' hrest]

theorem pushDeps_ok_mem (kinds : HMap PrivateDepKind) (idx : HMap Nat) :
    ∀ (dl : List String) (ds r : List Nat), pushDeps kinds idx dl ds = .ok r →
      ∀ i ∈ r, i ∈ ds ∨ ∃ d, d ∈ dl ∧ ∃ k, hmLookup d kinds = some k ∧
        k ≠ PrivateDepKind.Development ∧ hmLookup d idx = some i := by
  intro dl
  induction dl with
  | nil =>
    intro ds r h i hi
    cases h
    exact Or.inl hi
  | cons d rest ih =>
    intro ds r h i hi
    unfold pushDeps at h
    cases hk : hmLookup d kinds with
    | none => simp only [hk] at h; cases h
    | some k =>
      simp only [hk] at h
      by_cases hdev : k = PrivateDepKind.Development
      · rw [if_pos hdev] at h
        rcases ih ds r h i hi with h1 | ⟨d', hd', hk'⟩
        · exact Or.inl h1
        · exact Or.inr ⟨d', List.mem_cons_of_mem d hd', hk'⟩
      · rw [if_neg hdev] at h
        cases hx : hmLookup d idx with
        | none => simp only [hx] at h; cases h
        | some j =>
          simp only [hx] at h
          rcases ih (ds ++ [j]) r h i hi with h1 | ⟨d', hd', hk'⟩
          · rcases List.mem_append.mp h1 with h2 | h2
            · exact Or.inl h2
            · have : i = j := by simpa using h2
              subst this
              exact Or.inr ⟨d, List.mem_cons_self d rest, k, hk, hdev, hx⟩
          · exact Or.inr ⟨d', List.mem_cons_of_mem d hd', hk'⟩

theorem set_preserve_map {α β : Type} (f : α → β) :
    ∀ (l : List α) (i : Nat) (a b : α), l[i]? = some a → f b = f a →
      (l.set i b).map f = l.map f := by
  intro l
  induction l with
  | nil => intro i a b h _; cases h
  | cons x rest ih =>
    intro i a b h hf
    cases i with
    | zero =>
      simp only [List.getElem?_cons_zero, Option.some.injEq] at h
      subst h
      simp [List.set, hf]
    | succ n =>
      simp only [List.getElem?_cons_succ] at h
      simp [List.set, ih n a b h hf]

theorem fillNode_ok (kinds : HMap PrivateDepKind) (idx : HMap Nat)
    (pkgs : List Package) (node : Node) (pkgs' : List Package)
    (h : fillNode kinds idx pkgs node = .ok pkgs') :
    pkgs'.map Package.kind = pkgs.map Package.kind ∧
    ∀ pk ∈ pkgs', ∀ i ∈ pk.dependencies,
      (∃ pk0 ∈ pkgs, i ∈ pk0.dependencies) ∨
      ∃ d k, hmLookup d kinds = some k ∧ k ≠ PrivateDepKind.Development ∧
        hmLookup d idx = some i := by
  unfold fillNode at h
  cases hn : hmLookup node.id idx with
  | none =>
    simp only [hn] at h
    cases h
    exact ⟨rfl, fun pk hpk i hi => Or.inl ⟨pk, hpk, hi⟩⟩
  | some j =>
    simp only [hn] at h
    cases hg : pkgs[j]? with
    | none => simp only [hg] at h; cases h
    | some package =>
      simp only [hg] at h
      cases hp : pushDeps kinds idx node.dependencies package.dependencies with
      | error e =>
        rw [hp] at h
        have h2 : (Except.error RustPanic.panicked : Except RustPanic (List Package)) = .ok pkgs' := h
        cases h2
      | ok ds =>
        rw [hp] at h
        have h2 : Except.ok (pkgs.set j
            { package with dependencies := List.insertionSort natLeR ds }) = .ok pkgs' := h
        injection h2 with h3
        subst h3
        constructor
        · exact set_preserve_map Package.kind pkgs j package _ hg rfl
        · intro pk hpk i hi
          rcases List.mem_or_eq_of_mem_set hpk with hmem | heq
          · exact Or.inl ⟨pk, hmem, hi⟩
          · subst heq
            simp only at hi
            have hids : i ∈ ds := by
              have := (List.perm_insertionSort natLeR ds).mem_iff.mp hi
              exact this
            rcases pushDeps_ok_mem kinds idx node.dependencies package.dependencies ds hp i hids with
              h1 | ⟨d, hd, k, hk, hdev, hx⟩
            · refine Or.inl ⟨package, ?_, h1⟩
              exact List.getElem?_mem hg
            · exact Or.inr ⟨d, k, hk, hdev, hx⟩

theorem fillDeps_ok (kinds : HMap PrivateDepKind) (idx : HMap Nat) :
    ∀ (nodes : List Node) (pkgs pkgs' : List Package),
      fillDeps kinds idx nodes pkgs = .ok pkgs' →
      pkgs'.map Package.kind = pkgs.map Package.kind ∧
      ∀ pk ∈ pkgs', ∀ i ∈ pk.dependencies,
        (∃ pk0 ∈ pkgs, i ∈ pk0.dependencies) ∨
        ∃ d k, hmLookup d kinds = some k ∧ k ≠ PrivateDepKind.Development ∧
          hmLookup d idx = some i := by
  intro nodes
  induction nodes with
  | nil =>
    intro pkgs pkgs' h
    cases h
    exact ⟨rfl, fun pk hpk i hi => Or.inl ⟨pk, hpk, hi⟩⟩
  | cons n rest ih =>
    intro pkgs pkgs' h
    unfold fillDeps at h
    rw [List.foldlM_cons] at h
    cases hn : fillNode kinds idx pkgs n with
    | error e => simp only [hn] at h; cases h
    | ok mid =>
      simp only [hn] at h
      have h2 : List.foldlM (fillNode kinds idx) mid rest = .ok pkgs' := h
      have hmidinv := fillNode_ok kinds idx pkgs n mid hn
      have hrest := ih mid pkgs' h2
      constructor
      · rw [hrest.1, hmidinv.1]
      · intro pk hpk i hi
        rcases hrest.2 pk hpk i hi with ⟨pk0, hpk0, hi0⟩ | hgood
        · rcases hmidinv.2 pk0 hpk0 i hi0 with h1 | hgood
          · exact Or.inl h1
          · exact Or.inr hgood
        · exact Or.inr hgood

theorem foldIdx_inv {Good : String → Nat → Prop} :
    ∀ (entries : List (Nat × CmPackage)) (m : HMap Nat),
      (∀ e ∈ entries, Good e.2.id e.1) →
      (∀ d i, hmLookup d m = some i → Good d i) →
      ∀ d i, hmLookup d (entries.foldl (fun m e => hmInsert e.2.id e.1 m) m) = some i → Good d i := by
  intro entries
  induction entries with
  | nil => intro m _ hm d i h; exact hm d i h
  | cons e rest ih =>
    intro m hq hm d i h
    rw [List.foldl_cons] at h
    refine ih (hmInsert e.2.id e.1 m) (fun x hx => hq x (List.mem_cons_of_mem e hx)) ?_ d i h
    intro d' i' h'
    by_cases hd : d' = e.2.id
    · subst hd
      rw [hmLookup_insert_self] at h'
      injection h' with h''
      subst h''
      exact hq e (List.mem_cons_self e rest)
    · rw [hmLookup_insert_ne _ _ _ _ hd] at h'
      exact hm d' i' h'

theorem buildIdToIndex_spec (sorted : List CmPackage) (d : String) (i : Nat)
    (h : hmLookup d (buildIdToIndex sorted) = some i) :
    i < sorted.length ∧ ∃ sp, sorted[i]? = some sp ∧ sp.id = d := by
  refine @foldIdx_inv (fun d i => i < sorted.length ∧ ∃ sp, sorted[i]? = some sp ∧ sp.id = d)
    sorted.enum [] ?_ ?_ d i h
  · intro e he
    have hg : sorted[e.1]? = some e.2 := List.mem_enum_iff_getElem?.mp he
    have hlt : e.1 < sorted.length := by
      by_contra hc
      rw [List.getElem?_eq_none (Nat.le_of_not_lt hc)] at hg
      cases hg
    exact ⟨hlt, e.2, hg, rfl⟩
  · intro d' i' h'
    cases h'

theorem foldIdx_isSome :
    ∀ (entries : List (Nat × CmPackage)) (m : HMap Nat) (d : String),
      ((∃ e ∈ entries, e.2.id = d) ∨ (hmLookup d m).isSome) →
      (hmLookup d (entries.foldl (fun m e => hmInsert e.2.id e.1 m) m)).isSome := by
  intro entries
  induction entries with
  | nil =>
    intro m d h
    rcases h with ⟨e, he, _⟩ | h
    · cases he
    · exact h
  | cons e rest ih =>
    intro m d h
    rw [List.foldl_cons]
    refine ih (hmInsert e.2.id e.1 m) d ?_
    rcases h with ⟨e', he', hid⟩ | h
    · rcases List.mem_cons.mp he' with rfl | hmem
      · right
        rw [hid, hmLookup_insert_self]
        rfl
      · exact Or.inl ⟨e', hmem, hid⟩
    · right
      by_cases hd : d = e.2.id
      · rw [hd, hmLookup_insert_self]
        rfl
      · rw [hmLookup_insert_ne _ _ _ _ hd]
        exact h

theorem buildIdToIndex_isSome (sorted : List CmPackage) (sp : CmPackage) (hsp : sp ∈ sorted) :
    (hmLookup sp.id (buildIdToIndex sorted)).isSome := by
  refine foldIdx_isSome sorted.enum [] sp.id (Or.inl ?_)
  obtain ⟨i, hi⟩ := List.mem_iff_getElem?.mp hsp
  exact ⟨(i, sp), List.mem_enum_iff_getElem?.mpr hi, rfl⟩

theorem lookup_mem_values {α : Type} (d : String) (v : α) :
    ∀ (m : HMap α), hmLookup d m = some v → v ∈ hmValues m := by
  intro m
  induction m with
  | nil => intro h; cases h
  | cons e rest ih =>
    intro h
    unfold hmLookup at h
    by_cases hd : e.1 = d
    · rw [if_pos hd] at h
      injection h with h2
      subst h2
      exact List.mem_cons_self _ _
    · rw [if_neg hd] at h
      exact List.mem_cons_of_mem _ (ih h)

theorem buildIdToPackage_fold_lookup :
    ∀ (l : List CmPackage) (m : HMap CmPackage) (id : String) (q : CmPackage),
      hmLookup id (l.foldl (fun m p => hmInsert p.id p m) m) = some q →
      (q ∈ l ∧ q.id = id) ∨ hmLookup id m = some q := by
  intro l
  induction l with
  | nil => intro m id q h; exact Or.inr h
  | cons p rest ih =>
    intro m id q h
    rw [List.foldl_cons] at h
    rcases ih (hmInsert p.id p m) id q h with ⟨hq, hid⟩ | h2
    · exact Or.inl ⟨List.mem_cons_of_mem p hq, hid⟩
    · by_cases hd : id = p.id
      · rw [hd, hmLookup_insert_self] at h2
        injection h2 with h3
        subst h3
        exact Or.inl ⟨List.mem_cons_self p rest, hd.symm⟩
      · rw [hmLookup_insert_ne _ _ _ _ hd] at h2
        exact Or.inr h2

theorem buildIdToPackage_fold_isSome :
    ∀ (l : List CmPackage) (m : HMap CmPackage) (id : String),
      ((∃ p ∈ l, p.id = id) ∨ (hmLookup id m).isSome) →
      (hmLookup id (l.foldl (fun m p => hmInsert p.id p m) m)).isSome := by
  intro l
  induction l with
  | nil =>
    intro m id h
    rcases h with ⟨p, hp, _⟩ | h
    · cases hp
    · exact h
  | cons p rest ih =>
    intro m id h
    rw [List.foldl_cons]
    refine ih (hmInsert p.id p m) id ?_
    rcases h with ⟨p', hp', hid⟩ | h
    · rcases List.mem_cons.mp hp' with rfl | hmem
      · right
        rw [hid, hmLookup_insert_self]
        rfl
      · exact Or.inl ⟨p', hmem, hid⟩
    · right
      by_cases hd : id = p.id
      · rw [hd, hmLookup_insert_self]
        rfl
      · rw [hmLookup_insert_ne _ _ _ _ hd]
        exact h

theorem buildIdToPackage_lookup_mem (packages : List CmPackage) (id : String)
    (h : id ∈ packages.map CmPackage.id) :
    ∃ q, hmLookup id (buildIdToPackage packages) = some q ∧ q ∈ packages ∧ q.id = id := by
  obtain ⟨p, hp, hid⟩ := List.mem_map.mp h
  have hsome : (hmLookup id (buildIdToPackage packages)).isSome :=
    buildIdToPackage_fold_isSome packages [] id (Or.inl ⟨p, hp, hid⟩)
  obtain ⟨q, hq⟩ := Option.isSome_iff_exists.mp hsome
  rcases buildIdToPackage_fold_lookup packages [] id q hq with ⟨hmem, hqid⟩ | h2
  · exact ⟨q, hq, hmem, hqid⟩
  · cases h2

theorem exceptBind_ok {ε α β : Type} (a : α) (f : α → Except ε β) :
    (Except.ok a >>= f) = f a := rfl

theorem exceptBind_error {ε α β : Type} (e : ε) (f : α → Except ε β) :
    ((Except.error e : Except ε α) >>= f) = Except.error e := rfl

theorem from_metadata_ok_decomp (md : Metadata) (out : RawVersionInfo)
    (h : from_metadata md = .ok out) :
    ∃ r root survivors pkgs filled,
      md.resolve = some r ∧ r.root = some root ∧
      filterSurvivors (aggKinds r.nodes root) (hmValues (buildIdToPackage md.packages)) = .ok survivors ∧
      convertPackages (aggKinds r.nodes root) (List.insertionSort pkgLeR survivors) = .ok pkgs ∧
      fillDeps (aggKinds r.nodes root) (buildIdToIndex (List.insertionSort pkgLeR survivors)) r.nodes pkgs = .ok filled ∧
      out = { packages := filled } ∧
      sortedSurvivorsE md = .ok (List.insertionSort pkgLeR survivors) := by
  unfold from_metadata getResolve getRoot at h
  cases hres : md.resolve with
  | none =>
    rw [hres] at h
    cases h
  | some r =>
    simp only [hres, exceptBind_ok] at h
    cases hroot : r.root with
    | none =>
      simp only [hroot, exceptBind_error] at h
      cases h
    | some root =>
      simp only [hroot, exceptBind_ok] at h
      cases hflt : filterSurvivors (aggKinds r.nodes root) (hmValues (buildIdToPackage md.packages)) with
      | error e =>
        rw [hflt, exceptBind_error] at h
        cases h
      | ok survivors =>
        rw [hflt, exceptBind_ok] at h
        cases hconv : convertPackages (aggKinds r.nodes root) (List.insertionSort pkgLeR survivors) with
        | error e =>
          rw [hconv, exceptBind_error] at h
          cases h
        | ok pkgs =>
          rw [hconv, exceptBind_ok] at h
          cases hfill : fillDeps (aggKinds r.nodes root)
              (buildIdToIndex (List.insertionSort pkgLeR survivors)) r.nodes pkgs with
          | error e =>
            rw [hfill, exceptBind_error] at h
            cases h
          | ok filled =>
            rw [hfill, exceptBind_ok] at h
            injection h with h3
            refine ⟨r, root, survivors, pkgs, filled, rfl, hroot, hflt, hconv, hfill, h3.symm, ?_⟩
            unfold sortedSurvivorsE getResolve getRoot
            rw [hres]
            rw [exceptBind_ok]
            rw [hroot]
            rw [exceptBind_ok]
            rw [hflt, exceptBind_ok]

theorem forall₂_mem_right {α β : Type} {R : α → β → Prop} :
    ∀ {l : List α} {out : List β}, List.Forall₂ R l out → ∀ b ∈ out, ∃ a ∈ l, R a b := by
  intro l out h
  induction h with
  | nil => intro b hb; cases hb
  | cons hR hrest ih =>
    intro b hb
    rcases List.mem_cons.mp hb with rfl | hmem
    · exact ⟨_, List.mem_cons_self _ _, hR⟩
    · obtain ⟨a, ha, hab⟩ := ih b hmem
      exact ⟨a, List.mem_cons_of_mem _ ha, hab⟩

theorem forall₂_getElem? {α β : Type} {R : α → β → Prop} :
    ∀ {l : List α} {out : List β}, List.Forall₂ R l out →
      ∀ (j : Nat) (a : α) (b : β), l[j]? = some a → out[j]? = some b → R a b := by
  intro l out h
  induction h with
  | nil => intro j a b ha _; cases ha
  | cons hR hrest ih =>
    intro j a b ha hb
    cases j with
    | zero =>
      simp only [List.getElem?_cons_zero, Option.some.injEq] at ha hb
      subst ha
      subst hb
      exact hR
    | succ n =>
      simp only [List.getElem?_cons_succ] at ha hb
      exact ih n a b ha hb

theorem convertPackage_ok (kinds : HMap PrivateDepKind) (p : CmPackage) (q : Package)
    (h : convertPackage kinds p = .ok q) :
    q.dependencies = [] ∧ q.name = p.name ∧ q.version = p.version ∧
    q.source = source_to_source_string p.source ∧
    ∃ k, hmLookup p.id kinds = some k ∧ dependencyKindOfPrivate k = .ok q.kind := by
  unfold convertPackage at h
  cases hk : hmLookup p.id kinds with
  | none =>
    simp only [hk] at h
    cases h
  | some k =>
    simp only [hk] at h
    cases k with
    | Development =>
      have h2 : (Except.error RustPanic.panicked : Except RustPanic Package) = .ok q := h
      cases h2
    | Build =>
      have h2 : Except.ok (⟨p.name, p.version, source_to_source_string p.source,
          DependencyKind.Build, []⟩ : Package) = .ok q := h
      injection h2 with h3
      subst h3
      exact ⟨rfl, rfl, rfl, rfl, PrivateDepKind.Build, rfl, rfl⟩
    | Runtime =>
      have h2 : Except.ok (⟨p.name, p.version, source_to_source_string p.source,
          DependencyKind.Runtime, []⟩ : Package) = .ok q := h
      injection h2 with h3
      subst h3
      exact ⟨rfl, rfl, rfl, rfl, PrivateDepKind.Runtime, rfl, rfl⟩

/-- C9: in every successful normalizer output, each integer in any
package's dependencies list is strictly below the length of the packages
list, and is precisely the index assigned to a surviving package of the
sorted output: position i holds a surviving package whose identifier maps
back to i in the identifier-to-index assignment. -/
theorem deps_indices_in_range (md : Metadata) (out : RawVersionInfo) (sorted : List CmPackage)
    (hok : from_metadata md = .ok out) (hs : sortedSurvivorsE md = .ok sorted) :
    ∀ pk ∈ out.packages, ∀ i ∈ pk.dependencies,
      i < out.packages.length ∧
      ∃ sp, sorted[i]? = some sp ∧ hmLookup sp.id (buildIdToIndex sorted) = some i := by
  obtain ⟨r, root, survivors, pkgs, filled, hres, hroot, hflt, hconv, hfill, hout, hsE⟩ :=
    from_metadata_ok_decomp md out hok
  rw [hs] at hsE
  injection hsE with hsE
  rw [← hsE] at hconv hfill
  have hf2 := exceptMapM_ok (convertPackage (aggKinds r.nodes root)) sorted pkgs hconv
  have hlen1 : pkgs.length = sorted.length := hf2.length_eq.symm
  have hfo := fillDeps_ok (aggKinds r.nodes root) (buildIdToIndex sorted) r.nodes pkgs filled hfill
  have hlen2 : filled.length = pkgs.length := by
    have := congrArg List.length hfo.1
    simpa using this
  intro pk hpk i hi
  rw [hout] at hpk
  simp only at hpk
  rcases hfo.2 pk hpk i hi with ⟨pk0, hpk0, hi0⟩ | ⟨d, k, hk, hdev, hx⟩
  · obtain ⟨p, hp, hcp⟩ := forall₂_mem_right hf2 pk0 hpk0
    have := (convertPackage_ok _ p pk0 hcp).1
    rw [this] at hi0
    cases hi0
  · obtain ⟨hlt, sp, hsp, hspid⟩ := buildIdToIndex_spec sorted d i hx
    refine ⟨?_, sp, hsp, ?_⟩
    · rw [hout]
      simp only
      omega
    · rw [hspid]
      exact hx

/-- C5: a package whose aggregate kind is Development is absent from the
sorted survivor list, and no surviving package's dependencies list refers
to any position holding it; a package of the metadata whose aggregate kind
is not Development appears in the output at some position with exactly its
aggregate kind; and an identifier with at least one non-development
edge-kind tag never aggregates to Development. -/
theorem dev_only_excluded (md : Metadata) (r : Resolve) (root : String)
    (out : RawVersionInfo) (sorted : List CmPackage)
    (hr : md.resolve = some r) (hroot : r.root = some root)
    (hok : from_metadata md = .ok out) (hs : sortedSurvivorsE md = .ok sorted) :
    (∀ id, hmLookup id (aggKinds r.nodes root) = some PrivateDepKind.Development →
      (∀ sp ∈ sorted, sp.id ≠ id) ∧
      (∀ pk ∈ out.packages, ∀ i ∈ pk.dependencies, ∀ sp, sorted[i]? = some sp → sp.id ≠ id)) ∧
    (∀ id k, id ∈ md.packages.map CmPackage.id →
      hmLookup id (aggKinds r.nodes root) = some k → k ≠ PrivateDepKind.Development →
      ∃ (j : Nat) (sp : CmPackage) (pk : Package),
        sorted[j]? = some sp ∧ sp.id = id ∧ out.packages[j]? = some pk ∧
        dependencyKindOfPrivate k = .ok pk.kind) ∧
    (∀ id, (∃ t ∈ accTags r.nodes id, privDepKindOfCm t.kind ≠ PrivateDepKind.Development) →
      hmLookup id (aggKinds r.nodes root) ≠ some PrivateDepKind.Development) := by
  obtain ⟨r', root', survivors, pkgs, filled, hres, hroot', hflt, hconv, hfill, hout, hsE⟩ :=
    from_metadata_ok_decomp md out hok
  rw [hr] at hres
  injection hres with hres
  subst hres
  rw [hroot] at hroot'
  injection hroot' with hroot'
  subst hroot'
  rw [hs] at hsE
  injection hsE with hsE
  rw [← hsE] at hconv hfill
  have hfilter := filterSurvivors_ok_eq (aggKinds r.nodes root) _ survivors hflt
  have hsurvkind : ∀ sp ∈ sorted, hmLookup sp.id (aggKinds r.nodes root) ≠ some PrivateDepKind.Development := by
    intro sp hsp
    have hmem : sp ∈ survivors := by
      rw [hsE] at hsp
      exact (List.mem_insertionSort pkgLeR).mp hsp
    rw [hfilter] at hmem
    have := (List.mem_filter.mp hmem).2
    simpa using this
  have hf2 := exceptMapM_ok (convertPackage (aggKinds r.nodes root)) sorted pkgs hconv
  have hlen1 : pkgs.length = sorted.length := hf2.length_eq.symm
  have hfo := fillDeps_ok (aggKinds r.nodes root) (buildIdToIndex sorted) r.nodes pkgs filled hfill
  have hlen2 : filled.length = pkgs.length := by
    have := congrArg List.length hfo.1
    simpa using this
  refine ⟨?_, ?_, ?_⟩
  · intro id hdev
    constructor
    · intro sp hsp hc
      apply hsurvkind sp hsp
      rw [hc]
      exact hdev
    · intro pk hpk i hi sp hsp hc
      apply hsurvkind sp (List.getElem?_mem hsp)
      rw [hc]
      exact hdev
  · intro id k hid hk hdev
    obtain ⟨q, hq, hqmem, hqid⟩ := buildIdToPackage_lookup_mem md.packages id hid
    have hqvals : q ∈ hmValues (buildIdToPackage md.packages) := lookup_mem_values id q _ hq
    have hqsurv : q ∈ survivors := by
      rw [hfilter]
      refine List.mem_filter.mpr ⟨hqvals, ?_⟩
      simp only [decide_eq_true_eq, hqid, hk]
      intro hc
      injection hc with hc2
      exact hdev hc2
    have hqsorted : q ∈ sorted := by
      rw [hsE]
      exact (List.mem_insertionSort pkgLeR).mpr hqsurv
    obtain ⟨j, hj⟩ := List.mem_iff_getElem?.mp hqsorted
    have hjlt : j < sorted.length := by
      by_contra hc
      rw [List.getElem?_eq_none (Nat.le_of_not_lt hc)] at hj
      cases hj
    have hjpkgs : j < pkgs.length := by omega
    have hsome : (pkgs[j]?).isSome := by
      rw [List.getElem?_eq_getElem hjpkgs]
      rfl
    obtain ⟨pk0, hpk0⟩ := Option.isSome_iff_exists.mp hsome
    have hcv := forall₂_getElem? hf2 j q pk0 hj hpk0
    obtain ⟨_, _, _, _, k', hk', hkind⟩ := convertPackage_ok _ q pk0 hcv
    rw [hqid] at hk'
    rw [hk] at hk'
    injection hk' with hk'
    subst hk'
    have hjfilled : j < filled.length := by omega
    have hsome2 : (filled[j]?).isSome := by
      rw [List.getElem?_eq_getElem hjfilled]
      rfl
    obtain ⟨pk, hpk⟩ := Option.isSome_iff_exists.mp hsome2
    have hkmap : pk.kind = pk0.kind := by
      have h1 : (filled.map Package.kind)[j]? = (pkgs.map Package.kind)[j]? := by
        rw [hfo.1]
      rw [List.getElem?_map, List.getElem?_map, hpk, hpk0] at h1
      injection h1
    refine ⟨j, q, pk, hj, hqid, ?_, ?_⟩
    · rw [hout]
      exact hpk
    · rw [hkmap]
      exact hkind
  · intro id ⟨t, ht, htk⟩ hc
    by_cases hidroot : id = root
    · rw [hidroot, aggKinds_lookup_root] at hc
      injection hc with hc2
      cases hc2
    · have hne : accTags r.nodes id ≠ [] := by
        intro hnil
        rw [hnil] at ht
        cases ht
      have hedge := accTags_ne_nil_hasEdge r.nodes id hne
      rw [aggKinds_lookup_ne r.nodes root id hidroot, if_pos hedge] at hc
      injection hc with hc2
      have hspec := strongest_dep_kind_spec (accTags r.nodes id) hne
      have hrank := hspec.2 (privDepKindOfCm t.kind) (List.mem_map.mpr ⟨t, ht, rfl⟩)
      rw [hc2] at hrank
      have : (privDepKindOfCm t.kind).rank = 0 := Nat.le_antisymm hrank (Nat.zero_le _)
      cases hkt : privDepKindOfCm t.kind with
      | Development => exact htk hkt
      | Build => rw [hkt] at this; cases this
      | Runtime => rw [hkt] at this; cases this

/-- Witness for C9 at the two-package example. -/
theorem deps_indices_in_range_witness :
    from_metadata mdSameName = .ok outSameName ∧
    sortedSurvivorsE mdSameName = .ok sortedSameName ∧
    ∀ pk ∈ outSameName.packages, ∀ i ∈ pk.dependencies,
      i < outSameName.packages.length ∧
      ∃ sp, sortedSameName[i]? = some sp ∧
        hmLookup sp.id (buildIdToIndex sortedSameName) = some i :=
  ⟨by decide, by decide,
   deps_indices_in_range mdSameName outSameName sortedSameName (by decide) (by decide)⟩

/-- Witness for C5 at the development-edge example. -/
theorem dev_only_excluded_witness :
    (∀ sp ∈ sortedDev, sp.id ≠ ("D")) ∧
    (∃ (j : Nat) (sp : CmPackage) (pk : Package),
      sortedDev[j]? = some sp ∧ sp.id = ("B") ∧ outDev.packages[j]? = some pk ∧
      dependencyKindOfPrivate PrivateDepKind.Runtime = .ok pk.kind) :=
  ⟨((dev_only_excluded mdDev resolveDev ("R") outDev sortedDev rfl rfl (by decide) (by decide)).1
      ("D") (by decide)).1,
   (dev_only_excluded mdDev resolveDev ("R") outDev sortedDev rfl rfl (by decide) (by decide)).2.1
      ("B") PrivateDepKind.Runtime (by decide) (by decide) (by decide)⟩

/-! ### Theorems: determinism of the normalizer -/

theorem pkgCmp_eq (a b : CmPackage) :
    pkgCmp a b = if a.name = b.name then compare a.id b.id else compare a.name b.name := by
  unfold pkgCmp
  by_cases hn : a.name = b.name
  · have hc : compare a.name b.name = Ordering.eq := compare_eq_iff_eq.mpr hn
    simp [hc, hn, compare_eq_iff_eq]
  · have hc : compare a.name b.name ≠ Ordering.eq := fun hcon => hn (compare_eq_iff_eq.mp hcon)
    simp [hc, hn]

theorem pkgLeR_iff (a b : CmPackage) :
    pkgLeR a b ↔ (if a.name = b.name then a.id ≤ b.id else a.name ≤ b.name) := by
  unfold pkgLeR
  rw [pkgCmp_eq]
  by_cases hn : a.name = b.name
  · simp only [hn, if_true, if_pos rfl]
    exact compare_le_iff_le
  · simp only [if_neg hn]
    exact compare_le_iff_le

instance : IsTotal CmPackage pkgLeR := by
  constructor
  intro a b
  rw [pkgLeR_iff, pkgLeR_iff]
  by_cases hn : a.name = b.name
  · rw [if_pos hn, if_pos hn.symm]
    exact le_total a.id b.id
  · have hn' : ¬ (b.name = a.name) := fun hc => hn hc.symm
    rw [if_neg hn, if_neg hn']
    exact le_total a.name b.name

instance : IsTrans CmPackage pkgLeR := by
  constructor
  intro a b c h1 h2
  rw [pkgLeR_iff] at *
  by_cases hab : a.name = b.name <;> by_cases hbc : b.name = c.name
  · have hac : a.name = c.name := hab.trans hbc
    rw [if_pos hab] at h1
    rw [if_pos hbc] at h2
    rw [if_pos hac]
    exact le_trans h1 h2
  · have hac : ¬ (a.name = c.name) := fun hc => hbc (hab.symm.trans hc)
    rw [if_pos hab] at h1
    rw [if_neg hbc] at h2
    rw [if_neg hac]
    rw [hab]
    exact h2
  · have hac : ¬ (a.name = c.name) := fun hc => hab (hc.trans hbc.symm)
    rw [if_neg hab] at h1
    rw [if_pos hbc] at h2
    rw [if_neg hac]
    rw [← hbc]
    exact h1
  · rw [if_neg hab] at h1
    rw [if_neg hbc] at h2
    have hac : ¬ (a.name = c.name) := by
      intro hc
      apply hab
      have h3 : c.name ≤ b.name := hc ▸ h1
      exact le_antisymm h1 (le_trans h2 (le_of_eq hc.symm))
    rw [if_neg hac]
    exact le_trans h1 h2

theorem pkgLeR_antisymm_keys (a b : CmPackage) (h1 : pkgLeR a b) (h2 : pkgLeR b a) :
    a.name = b.name ∧ a.id = b.id := by
  rw [pkgLeR_iff] at h1 h2
  by_cases hn : a.name = b.name
  · rw [if_pos hn] at h1
    rw [if_pos hn.symm] at h2
    exact ⟨hn, le_antisymm h1 h2⟩
  · have hn' : ¬ (b.name = a.name) := fun hc => hn hc.symm
    rw [if_neg hn] at h1
    rw [if_neg hn'] at h2
    exact absurd (le_antisymm h1 h2) hn

theorem sortedPkgs_unique :
    ∀ (l₁ l₂ : List CmPackage), List.Perm l₁ l₂ → l₁.Sorted pkgLeR → l₂.Sorted pkgLeR →
      (l₁.map CmPackage.id).Nodup → l₁ = l₂ := by
  intro l₁
  induction l₁ with
  | nil =>
    intro l₂ hp _ _ _
    exact hp.nil_eq
  | cons a t₁ ih =>
    intro l₂ hp hs₁ hs₂ hnd
    cases l₂ with
    | nil => exact absurd hp.symm.nil_eq (by simp)
    | cons b t₂ =>
      have hinj := List.inj_on_of_nodup_map hnd
      have hab : a = b := by
        have hamem : a ∈ b :: t₂ := hp.subset (List.mem_cons_self a t₁)
        rcases List.mem_cons.mp hamem with h | hat₂
        · exact h
        · have hba : pkgLeR b a := List.rel_of_sorted_cons hs₂ a hat₂
          have hbmem : b ∈ a :: t₁ := hp.symm.subset (List.mem_cons_self b t₂)
          rcases List.mem_cons.mp hbmem with h | hbt₁
          · exact h.symm
          · have hab2 : pkgLeR a b := List.rel_of_sorted_cons hs₁ b hbt₁
            have hkeys := pkgLeR_antisymm_keys a b hab2 hba
            exact hinj (List.mem_cons_self a t₁) (List.mem_cons_of_mem a hbt₁) hkeys.2
      subst hab
      have hpt : List.Perm t₁ t₂ := hp.cons_inv
      have := ih t₂ hpt hs₁.of_cons hs₂.of_cons (by
        rw [List.map_cons] at hnd
        exact hnd.of_cons)
      rw [this]

theorem pdkMax_rightcomm (z x y : PrivateDepKind) :
    pdkMax (pdkMax z x) y = pdkMax (pdkMax z y) x := by
  cases z <;> cases x <;> cases y <;> rfl

theorem pdkMax_dev (x : PrivateDepKind) : pdkMax PrivateDepKind.Development x = x := by
  cases x <;> rfl

theorem iterMax_eq_fold (l : List PrivateDepKind) (h : l ≠ []) :
    iterMaxPdk l = some (l.foldl pdkMax PrivateDepKind.Development) := by
  cases l with
  | nil => exact absurd rfl h
  | cons k rest =>
    unfold iterMaxPdk
    rw [List.foldl_cons, pdkMax_dev]

theorem strongest_perm (l l' : List DepKindInfo) (h : List.Perm l l') :
    strongest_dep_kind l = strongest_dep_kind l' := by
  unfold strongest_dep_kind
  cases hl : l with
  | nil =>
    have : l' = [] := by
      subst hl
      exact h.nil_eq.symm
    rw [this]
  | cons x rest =>
    have hne : l ≠ [] := by rw [hl]; simp
    have hne' : l' ≠ [] := by
      intro hc
      rw [hc] at h
      rw [h.eq_nil] at hne
      exact hne rfl
    rw [← hl]
    have hmne : l.map (fun d => privDepKindOfCm d.kind) ≠ [] := by
      rw [hl]; simp
    have hmne' : l'.map (fun d => privDepKindOfCm d.kind) ≠ [] := by
      intro hc
      rw [List.map_eq_nil_iff] at hc
      exact hne' hc
    rw [iterMax_eq_fold _ hmne, iterMax_eq_fold _ hmne']
    have hperm : List.Perm (l.map (fun d => privDepKindOfCm d.kind))
        (l'.map (fun d => privDepKindOfCm d.kind)) := h.map _
    rw [hperm.foldl_eq' (fun x _ y _ z => pdkMax_rightcomm z x y) PrivateDepKind.Development]

theorem depTags_perm (deps deps' : List NodeDep) (id : String) (h : List.Perm deps deps') :
    List.Perm (depTags deps id) (depTags deps' id) := by
  unfold depTags
  exact ((h.filter _).map _).flatten

theorem accTags_perm (l' l : List Node) (id : String) (h : NodesEquiv l' l) :
    List.Perm (accTags l' id) (accTags l id) := by
  obtain ⟨l₀, hperm, hf⟩ := h
  have h1 : List.Perm (accTags l' id) (accTags l₀ id) := by
    unfold accTags
    exact (hperm.map _).flatten
  have h2 : List.Perm (accTags l₀ id) (accTags l id) := by
    unfold accTags
    apply List.Perm.flatten_congr
    rw [List.forall₂_map_right_iff, List.forall₂_map_left_iff]
    refine List.Forall₂.imp ?_ hf
    intro n₀ n hn
    exact depTags_perm n₀.deps n.deps id hn.2.1
  exact h1.trans h2

theorem forall₂_mem_left {α β : Type} {R : α → β → Prop} :
    ∀ {l : List α} {out : List β}, List.Forall₂ R l out → ∀ a ∈ l, ∃ b ∈ out, R a b := by
  intro l out h
  induction h with
  | nil => intro a ha; cases ha
  | cons hR hrest ih =>
    intro a ha
    rcases List.mem_cons.mp ha with rfl | hmem
    · exact ⟨_, List.mem_cons_self _ _, hR⟩
    · obtain ⟨b, hb, hab⟩ := ih a hmem
      exact ⟨b, List.mem_cons_of_mem _ hb, hab⟩

theorem hasEdgeToB_eq_true_iff (nodes : List Node) (id : String) :
    hasEdgeToB nodes id = true ↔ ∃ n ∈ nodes, ∃ d ∈ n.deps, d.pkg = id := by
  simp [hasEdgeToB, List.any_eq_true]

theorem hasEdgeToB_congr (l' l : List Node) (id : String) (h : NodesEquiv l' l) :
    hasEdgeToB l' id = hasEdgeToB l id := by
  obtain ⟨l₀, hperm, hf⟩ := h
  refine Bool.coe_iff_coe.mp ?_
  rw [hasEdgeToB_eq_true_iff, hasEdgeToB_eq_true_iff]
  constructor
  · intro ⟨n, hn, d, hd, hpkg⟩
    obtain ⟨nt, hnt, hequiv⟩ := forall₂_mem_left hf n (hperm.subset hn)
    exact ⟨nt, hnt, d, hequiv.2.1.subset hd, hpkg⟩
  · intro ⟨n, hn, d, hd, hpkg⟩
    obtain ⟨n₀, hn₀, hequiv⟩ := forall₂_mem_right hf n hn
    exact ⟨n₀, hperm.symm.subset hn₀, d, hequiv.2.1.symm.subset hd, hpkg⟩

theorem aggKinds_congr (l' l : List Node) (root id : String) (h : NodesEquiv l' l) :
    hmLookup id (aggKinds l' root) = hmLookup id (aggKinds l root) := by
  by_cases hr : id = root
  · rw [hr, aggKinds_lookup_root, aggKinds_lookup_root]
  · rw [aggKinds_lookup_ne l' root id hr, aggKinds_lookup_ne l root id hr]
    rw [hasEdgeToB_congr l' l id h]
    by_cases he : hasEdgeToB l id = true
    · rw [if_pos he, if_pos he]
      rw [strongest_perm _ _ (accTags_perm l' l id h)]
    · rw [if_neg he, if_neg he]

theorem hmErase_of_none {α : Type} (k : String) :
    ∀ (m : HMap α), hmLookup k m = none → hmErase k m = m := by
  intro m
  induction m with
  | nil => intro _; rfl
  | cons e rest ih =>
    intro h
    unfold hmLookup at h
    by_cases he : e.1 = k
    · rw [if_pos he] at h
      cases h
    · rw [if_neg he] at h
      unfold hmErase
      rw [if_neg he, ih h]

theorem buildIdToPackage_fold_values :
    ∀ (l : List CmPackage) (m : HMap CmPackage),
      (l.map CmPackage.id).Nodup →
      (∀ p ∈ l, hmLookup p.id m = none) →
      l.foldl (fun m p => hmInsert p.id p m) m =
        (l.reverse.map (fun p => (p.id, p))) ++ m := by
  intro l
  induction l with
  | nil => intro m _ _; simp
  | cons p rest ih =>
    intro m hnd hnone
    rw [List.foldl_cons]
    have hpm : hmLookup p.id m = none := hnone p (List.mem_cons_self p rest)
    have hinsert : hmInsert p.id p m = (p.id, p) :: m := by
      unfold hmInsert
      rw [hmErase_of_none p.id m hpm]
    rw [hinsert]
    have hnd2 : (rest.map CmPackage.id).Nodup := by
      rw [List.map_cons] at hnd
      exact hnd.of_cons
    have hnone2 : ∀ q ∈ rest, hmLookup q.id ((p.id, p) :: m) = none := by
      intro q hq
      have hqp : ¬ (q.id = p.id) := by
        intro hc
        rw [List.map_cons] at hnd
        have := (List.nodup_cons.mp hnd).1
        exact this (hc ▸ List.mem_map_of_mem CmPackage.id hq)
      unfold hmLookup
      rw [if_neg (fun hc : (p.id, p).1 = q.id => hqp hc.symm)]
      exact hnone q (List.mem_cons_of_mem p hq)
    rw [ih ((p.id, p) :: m) hnd2 hnone2]
    simp [List.map_append]

theorem buildIdToPackage_values (l : List CmPackage) (hnd : (l.map CmPackage.id).Nodup) :
    hmValues (buildIdToPackage l) = l.reverse := by
  unfold buildIdToPackage
  rw [buildIdToPackage_fold_values l [] hnd (fun p _ => rfl)]
  unfold hmValues
  rw [List.append_nil, List.map_map, List.map_reverse]
  have hid : ∀ (t : List CmPackage), List.map ((fun e => e.2) ∘ fun p => (p.id, p)) t = t := by
    intro t
    induction t with
    | nil => rfl
    | cons x xs ih => simp only [List.map_cons, ih]; rfl
  rw [hid]

theorem filterSurvivors_ok_isSome (kinds : HMap PrivateDepKind) :
    ∀ (l s : List CmPackage), filterSurvivors kinds l = .ok s →
      ∀ p ∈ l, (hmLookup p.id kinds).isSome := by
  intro l
  induction l with
  | nil => intro s _ p hp; cases hp
  | cons q rest ih =>
    intro s h p hp
    unfold filterSurvivors at h
    cases hk : hmLookup q.id kinds with
    | none => rw [hk] at h; cases h
    | some k =>
      rw [hk] at h
      cases hrest : filterSurvivors kinds rest with
      | error e =>
        rw [hrest] at h
        have h2 : (Except.error RustPanic.panicked : Except RustPanic (List CmPackage)) = .ok s := h
        cases h2
      | ok rest' =>
        rcases List.mem_cons.mp hp with rfl | hmem
        · rw [hk]; rfl
        · exact ih rest' hrest p hmem

theorem filterSurvivors_total (kinds : HMap PrivateDepKind) :
    ∀ (l : List CmPackage), (∀ p ∈ l, (hmLookup p.id kinds).isSome) →
      filterSurvivors kinds l =
        .ok (l.filter (fun p => decide (hmLookup p.id kinds ≠ some PrivateDepKind.Development))) := by
  intro l
  induction l with
  | nil => intro _; rfl
  | cons p rest ih =>
    intro hall
    unfold filterSurvivors
    have hsome := hall p (List.mem_cons_self p rest)
    obtain ⟨k, hk⟩ := Option.isSome_iff_exists.mp hsome
    rw [hk]
    rw [ih (fun q hq => hall q (List.mem_cons_of_mem p hq))]
    rw [List.filter_cons]
    by_cases hdev : k = PrivateDepKind.Development
    · have hp : (decide (hmLookup p.id kinds ≠ some PrivateDepKind.Development)) = false := by
        simp [hk, hdev]
      rw [hp]
      simp only [Bool.false_eq_true, if_false]
      rw [exceptBind_ok, if_pos hdev]
    · have hp : (decide (hmLookup p.id kinds ≠ some PrivateDepKind.Development)) = true := by
        simp [hk]
        intro hc
        exact hdev hc
      rw [hp]
      simp only [if_true]
      rw [exceptBind_ok, if_neg hdev]

theorem pushDeps_eq (kinds : HMap PrivateDepKind) (idx : HMap Nat) :
    ∀ (dl : List String) (ds : List Nat),
      pushDeps kinds idx dl ds =
        if pushOkB kinds idx dl then .ok (ds ++ pushList kinds idx dl)
        else .error RustPanic.panicked := by
  intro dl
  induction dl with
  | nil =>
    intro ds
    simp [pushDeps, pushOkB, pushList]
  | cons d rest ih =>
    intro ds
    unfold pushDeps pushOkB pushList
    cases hk : hmLookup d kinds with
    | none => simp [hk]
    | some k =>
      by_cases hdev : k = PrivateDepKind.Development
      · subst hdev
        simp only [hk, List.all_cons, List.filterMap_cons]
        simp only [decide_True, Bool.true_or, Bool.true_and, if_pos rfl]
        rw [ih ds]
        unfold pushOkB pushList
        rfl
      · cases hx : hmLookup d idx with
        | none =>
          simp only [hk, List.all_cons, hx, Option.isSome_none]
          rw [if_neg hdev]
          have hd : (decide (k = PrivateDepKind.Development) || false) = false := by
            simp [hdev]
          rw [hd]
          simp
        | some j =>
          simp only [hk, List.all_cons, hx, List.filterMap_cons]
          simp only [if_neg hdev]
          have hd : (decide (k = PrivateDepKind.Development) || (some j).isSome) = true := by
            simp
          rw [hd, Bool.true_and]
          rw [ih (ds ++ [j])]
          unfold pushOkB pushList
          by_cases hall : rest.all (fun d =>
              match hmLookup d kinds with
              | none => false
              | some k => decide (k = PrivateDepKind.Development) || (hmLookup d idx).isSome) = true
          · rw [if_pos hall, if_pos hall]
            rw [List.append_assoc]
            rfl
          · rw [if_neg hall, if_neg hall]

instance : IsTotal Nat natLeR := by
  constructor
  intro a b
  unfold natLeR
  exact le_total a b

instance : IsTrans Nat natLeR := by
  constructor
  intro a b c h1 h2
  unfold natLeR at *
  omega

instance : IsAntisymm Nat natLeR := by
  constructor
  intro a b h1 h2
  unfold natLeR at *
  omega

theorem pushDeps_kinds_congr (kinds' kinds : HMap PrivateDepKind) (idx : HMap Nat)
    (hkq : ∀ dd, hmLookup dd kinds' = hmLookup dd kinds) :
    pushDeps kinds' idx = pushDeps kinds idx := by
  funext dl
  induction dl with
  | nil => funext ds; rfl
  | cons d rest ih =>
    funext ds
    unfold pushDeps
    rw [hkq d, ih]

theorem convertPackage_kinds_congr (kinds' kinds : HMap PrivateDepKind)
    (hkq : ∀ dd, hmLookup dd kinds' = hmLookup dd kinds) :
    convertPackage kinds' = convertPackage kinds := by
  funext p
  unfold convertPackage
  rw [hkq p.id]

theorem fillNode_kinds_congr (kinds' kinds : HMap PrivateDepKind) (idx : HMap Nat)
    (hkq : ∀ dd, hmLookup dd kinds' = hmLookup dd kinds) :
    fillNode kinds' idx = fillNode kinds idx := by
  funext pkgs node
  unfold fillNode
  rw [pushDeps_kinds_congr kinds' kinds idx hkq]

theorem fillNode_skip (kinds : HMap PrivateDepKind) (idx : HMap Nat) (pkgs : List Package)
    (n : Node) (h : hmLookup n.id idx = none) : fillNode kinds idx pkgs n = .ok pkgs := by
  unfold fillNode
  rw [h]

theorem fillNode_node_congr (kinds : HMap PrivateDepKind) (idx : HMap Nat)
    (pkgs : List Package) (n' n : Node) (h : NodeEquiv n' n) :
    fillNode kinds idx pkgs n' = fillNode kinds idx pkgs n := by
  unfold fillNode
  rw [h.1]
  cases hl : hmLookup n.id idx with
  | none => simp only [hl]
  | some i =>
    simp only [hl]
    cases hg : pkgs[i]? with
    | none => simp only [hg]
    | some package =>
      simp only [hg]
      rw [pushDeps_eq, pushDeps_eq]
      have hokeq : pushOkB kinds idx n'.dependencies = pushOkB kinds idx n.dependencies := by
        refine Bool.coe_iff_coe.mp ?_
        unfold pushOkB
        rw [List.all_eq_true, List.all_eq_true]
        constructor
        · intro hall d hd
          exact hall d (h.2.2.symm.subset hd)
        · intro hall d hd
          exact hall d (h.2.2.subset hd)
      rw [hokeq]
      by_cases hok : pushOkB kinds idx n.dependencies = true
      · rw [if_pos hok, if_pos hok]
        have hperm : List.Perm (package.dependencies ++ pushList kinds idx n'.dependencies)
            (package.dependencies ++ pushList kinds idx n.dependencies) :=
          List.Perm.append_left _ ((h.2.2).filterMap _)
        have hsorteq : List.insertionSort natLeR (package.dependencies ++ pushList kinds idx n'.dependencies) =
            List.insertionSort natLeR (package.dependencies ++ pushList kinds idx n.dependencies) := by
        -- eq_of_perm_of_sorted
          refine List.eq_of_perm_of_sorted ?_ (List.sorted_insertionSort natLeR _)
            (List.sorted_insertionSort natLeR _)
          exact (List.perm_insertionSort natLeR _).trans (hperm.trans (List.perm_insertionSort natLeR _).symm)
        exact congrArg (fun ds => Except.ok (pkgs.set i { package with dependencies := ds })) hsorteq
      · rw [if_neg hok, if_neg hok]

theorem exceptBindM_ok {ε α β : Type} (a : α) (f : α → Except ε β) :
    (Except.ok a : Except ε α).bind f = f a := rfl

theorem exceptBindM_error {ε α β : Type} (e : ε) (f : α → Except ε β) :
    (Except.error e : Except ε α).bind f = Except.error e := rfl

theorem fillNode_comm (kinds : HMap PrivateDepKind) (idx : HMap Nat) (x y : Node)
    (hinj : ∀ d₁ d₂ i, hmLookup d₁ idx = some i → hmLookup d₂ idx = some i → d₁ = d₂)
    (hxy : x.id ≠ y.id) (pkgs : List Package) :
    ((fillNode kinds idx pkgs x).bind (fun p => fillNode kinds idx p y)) =
    ((fillNode kinds idx pkgs y).bind (fun p => fillNode kinds idx p x)) := by
  cases hx : hmLookup x.id idx with
  | none =>
    rw [fillNode_skip kinds idx pkgs x hx, exceptBindM_ok]
    cases hy2 : fillNode kinds idx pkgs y with
    | error e => rw [exceptBindM_error]
    | ok p => rw [exceptBindM_ok, fillNode_skip kinds idx p x hx]
  | some i =>
    cases hy : hmLookup y.id idx with
    | none =>
      rw [fillNode_skip kinds idx pkgs y hy, exceptBindM_ok]
      cases hx2 : fillNode kinds idx pkgs x with
      | error e => rw [exceptBindM_error]
      | ok p => rw [exceptBindM_ok, fillNode_skip kinds idx p y hy]
    | some j =>
      have hij : i ≠ j := by
        intro hc
        subst hc
        exact hxy (hinj x.id y.id i hx hy)
      have hfx : ∀ (ps : List Package), fillNode kinds idx ps x =
          match ps[i]? with
          | none => .error RustPanic.panicked
          | some package =>
            (pushDeps kinds idx x.dependencies package.dependencies).bind (fun ds =>
              .ok (ps.set i { package with dependencies := List.insertionSort natLeR ds })) := by
        intro ps
        unfold fillNode
        simp only [hx]
        rfl
      have hfy : ∀ (ps : List Package), fillNode kinds idx ps y =
          match ps[j]? with
          | none => .error RustPanic.panicked
          | some package =>
            (pushDeps kinds idx y.dependencies package.dependencies).bind (fun ds =>
              .ok (ps.set j { package with dependencies := List.insertionSort natLeR ds })) := by
        intro ps
        unfold fillNode
        simp only [hy]
        rfl
      cases hgx : pkgs[i]? with
      | none =>
        rw [hfx pkgs]
        simp only [hgx, exceptBindM_error]
        cases hgy : pkgs[j]? with
        | none =>
          rw [hfy pkgs]
          simp only [hgy, exceptBindM_error]
        | some py =>
          rw [hfy pkgs]
          simp only [hgy]
          cases hpy : pushDeps kinds idx y.dependencies py.dependencies with
          | error e =>
            simp only [exceptBindM_error]
          | ok dy =>
            simp only [exceptBindM_ok]
            rw [hfx _, List.getElem?_set_ne (fun hc => hij hc.symm)]
            simp only [hgx]
      | some px =>
        cases hgy : pkgs[j]? with
        | none =>
          rw [hfy pkgs]
          simp only [hgy, exceptBindM_error]
          rw [hfx pkgs]
          simp only [hgx]
          cases hpx : pushDeps kinds idx x.dependencies px.dependencies with
          | error e =>
            simp only [exceptBindM_error]
          | ok dx =>
            simp only [exceptBindM_ok]
            rw [hfy _, List.getElem?_set_ne hij]
            simp only [hgy]
        | some py =>
          rw [hfx pkgs]
          simp only [hgx]
          cases hpx : pushDeps kinds idx x.dependencies px.dependencies with
          | error e =>
            simp only [exceptBindM_error]
            rw [hfy pkgs]
            simp only [hgy]
            cases hpy : pushDeps kinds idx y.dependencies py.dependencies with
            | error e2 =>
              simp only [exceptBindM_error]
            | ok dy =>
              simp only [exceptBindM_ok]
              rw [hfx _, List.getElem?_set_ne (fun hc => hij hc.symm)]
              simp only [hgx]
              rw [hpx]
              simp only [exceptBindM_error]
          | ok dx =>
            simp only [exceptBindM_ok]
            rw [hfy pkgs]
            simp only [hgy]
            cases hpy : pushDeps kinds idx y.dependencies py.dependencies with
            | error e =>
              simp only [exceptBindM_error]
              rw [hfy _, List.getElem?_set_ne hij]
              simp only [hgy]
              rw [hpy]
              simp only [exceptBindM_error]
            | ok dy =>
              simp only [exceptBindM_ok]
              rw [hfy _, List.getElem?_set_ne hij]
              simp only [hgy]
              rw [hpy]
              simp only [exceptBindM_ok]
              rw [hfx _, List.getElem?_set_ne (fun hc => hij hc.symm)]
              simp only [hgx]
              rw [hpx]
              simp only [exceptBindM_ok]
              rw [List.set_comm _ _ _ hij]

theorem exceptFoldl_error {α β : Type} (f : β → α → Except RustPanic β) (e : RustPanic) :
    ∀ (l : List α),
      List.foldl (fun acc x => acc.bind (fun b => f b x)) (Except.error e) l = Except.error e := by
  intro l
  induction l with
  | nil => rfl
  | cons x xs ih =>
    rw [List.foldl_cons, exceptBindM_error]
    exact ih

theorem exceptFoldlM_eq_foldl {α β : Type} (f : β → α → Except RustPanic β) :
    ∀ (l : List α) (b : β),
      List.foldlM f b l =
        List.foldl (fun acc x => acc.bind (fun b => f b x)) (Except.ok b) l := by
  intro l
  induction l with
  | nil => intro b; rfl
  | cons x xs ih =>
    intro b
    rw [List.foldlM_cons, List.foldl_cons, exceptBindM_ok]
    cases hfx : f b x with
    | error e =>
      rw [exceptBind_error]
      exact (exceptFoldl_error f e xs).symm
    | ok b' =>
      rw [exceptBind_ok]
      exact ih b'

theorem fillDeps_perm (kinds : HMap PrivateDepKind) (idx : HMap Nat)
    (nodes' nodes : List Node) (hperm : List.Perm nodes' nodes)
    (hinj : ∀ d₁ d₂ i, hmLookup d₁ idx = some i → hmLookup d₂ idx = some i → d₁ = d₂)
    (hnd : (nodes'.map Node.id).Nodup) (pkgs : List Package) :
    fillDeps kinds idx nodes' pkgs = fillDeps kinds idx nodes pkgs := by
  unfold fillDeps
  rw [exceptFoldlM_eq_foldl, exceptFoldlM_eq_foldl]
  refine hperm.foldl_eq' ?_ (Except.ok pkgs)
  intro x hx y hy z
  by_cases hxy : x = y
  · rw [hxy]
  · have hids : x.id ≠ y.id := by
      intro hc
      exact hxy (List.inj_on_of_nodup_map hnd hx hy hc)
    cases z with
    | error e => simp only [exceptBindM_error]
    | ok b =>
      rw [exceptBindM_ok, exceptBindM_ok]
      exact fillNode_comm kinds idx x y hinj hids b

theorem fillDeps_node_congr (kinds : HMap PrivateDepKind) (idx : HMap Nat) :
    ∀ (l₀ nodes : List Node), List.Forall₂ NodeEquiv l₀ nodes →
      ∀ (pkgs : List Package), fillDeps kinds idx l₀ pkgs = fillDeps kinds idx nodes pkgs := by
  intro l₀ nodes h
  induction h with
  | nil => intro pkgs; rfl
  | cons hR hrest ih =>
    intro pkgs
    unfold fillDeps at *
    rw [List.foldlM_cons, List.foldlM_cons]
    rw [fillNode_node_congr kinds idx pkgs _ _ hR]
    cases fillNode kinds idx pkgs _ with
    | error e => rfl
    | ok mid => exact ih mid

theorem forall₂_nodeEquiv_map_id :
    ∀ {l₀ l : List Node}, List.Forall₂ NodeEquiv l₀ l → l₀.map Node.id = l.map Node.id := by
  intro l₀ l h
  induction h with
  | nil => rfl
  | cons hR hrest ih =>
    rw [List.map_cons, List.map_cons, hR.1, ih]

/-- C6: the normalizer is deterministic. Given the same raw graph with the
packages supplied in a different order, the resolve nodes supplied in a
different order, and every node's edge and dependency lists reordered, a
successful run produces the identical output and the identical
identifier-to-index assignment. -/
theorem normalizer_deterministic (md md' : Metadata) (r r' : Resolve) (out : RawVersionInfo)
    (hr : md.resolve = some r) (hr' : md'.resolve = some r')
    (hroot : r'.root = r.root)
    (hpkg : List.Perm md'.packages md.packages)
    (hids : (md.packages.map CmPackage.id).Nodup)
    (hnodes : NodesEquiv r'.nodes r.nodes)
    (hnids : (r.nodes.map Node.id).Nodup)
    (hok : from_metadata md = .ok out) :
    from_metadata md' = .ok out ∧ idToIndexE md' = idToIndexE md := by
  obtain ⟨r0, root, survivors, pkgs, filled, hres, hroot0, hflt, hconv, hfill, hout, hsE⟩ :=
    from_metadata_ok_decomp md out hok
  rw [hr] at hres
  injection hres with hres
  subst hres
  have hkq : ∀ dd, hmLookup dd (aggKinds r'.nodes root) = hmLookup dd (aggKinds r.nodes root) :=
    fun dd => aggKinds_congr r'.nodes r.nodes root dd hnodes
  have hids' : (md'.packages.map CmPackage.id).Nodup := ((hpkg.map CmPackage.id).nodup_iff).mpr hids
  have hv' : hmValues (buildIdToPackage md'.packages) = md'.packages.reverse :=
    buildIdToPackage_values md'.packages hids'
  have hv : hmValues (buildIdToPackage md.packages) = md.packages.reverse :=
    buildIdToPackage_values md.packages hids
  have hvperm : List.Perm (hmValues (buildIdToPackage md'.packages))
      (hmValues (buildIdToPackage md.packages)) := by
    rw [hv', hv]
    exact (md'.packages.reverse_perm).trans (hpkg.trans (md.packages.reverse_perm).symm)
  have hsurv_eq : survivors = (hmValues (buildIdToPackage md.packages)).filter
      (fun p => decide (hmLookup p.id (aggKinds r.nodes root) ≠ some PrivateDepKind.Development)) :=
    filterSurvivors_ok_eq _ _ survivors hflt
  have hisSome := filterSurvivors_ok_isSome _ _ survivors hflt
  have hflt' : filterSurvivors (aggKinds r'.nodes root) (hmValues (buildIdToPackage md'.packages)) =
      .ok ((hmValues (buildIdToPackage md'.packages)).filter
        (fun p => decide (hmLookup p.id (aggKinds r'.nodes root) ≠ some PrivateDepKind.Development))) := by
    refine filterSurvivors_total _ _ ?_
    intro p hp
    rw [hkq p.id]
    exact hisSome p (hvperm.subset hp)
  have hpredeq : (fun p : CmPackage => decide (hmLookup p.id (aggKinds r'.nodes root) ≠ some PrivateDepKind.Development)) =
      (fun p : CmPackage => decide (hmLookup p.id (aggKinds r.nodes root) ≠ some PrivateDepKind.Development)) := by
    funext p
    rw [hkq p.id]
  have hsurvperm : List.Perm ((hmValues (buildIdToPackage md'.packages)).filter
      (fun p => decide (hmLookup p.id (aggKinds r'.nodes root) ≠ some PrivateDepKind.Development))) survivors := by
    rw [hpredeq, hsurv_eq]
    exact hvperm.filter _
  have hnd_sorted' : ((List.insertionSort pkgLeR ((hmValues (buildIdToPackage md'.packages)).filter
      (fun p => decide (hmLookup p.id (aggKinds r'.nodes root) ≠ some PrivateDepKind.Development)))).map CmPackage.id).Nodup := by
    have h1 : List.Perm ((List.insertionSort pkgLeR _).map CmPackage.id)
        (((hmValues (buildIdToPackage md'.packages)).filter
          (fun p => decide (hmLookup p.id (aggKinds r'.nodes root) ≠ some PrivateDepKind.Development))).map CmPackage.id) :=
      (List.perm_insertionSort pkgLeR _).map CmPackage.id
    refine h1.nodup_iff.mpr ?_
    have hsub : List.Sublist (((hmValues (buildIdToPackage md'.packages)).filter
        (fun p => decide (hmLookup p.id (aggKinds r'.nodes root) ≠ some PrivateDepKind.Development))).map CmPackage.id)
        ((hmValues (buildIdToPackage md'.packages)).map CmPackage.id) :=
      (List.filter_sublist _).map CmPackage.id
    refine List.Nodup.sublist hsub ?_
    rw [hv', List.map_reverse]
    exact List.nodup_reverse.mpr hids'
  have hsorted_eq : List.insertionSort pkgLeR ((hmValues (buildIdToPackage md'.packages)).filter
      (fun p => decide (hmLookup p.id (aggKinds r'.nodes root) ≠ some PrivateDepKind.Development))) =
      List.insertionSort pkgLeR survivors := by
    refine sortedPkgs_unique _ _ ?_ ?_ ?_ hnd_sorted'
    · exact (List.perm_insertionSort pkgLeR _).trans
        (hsurvperm.trans (List.perm_insertionSort pkgLeR survivors).symm)
    · exact List.sorted_insertionSort pkgLeR _
    · exact List.sorted_insertionSort pkgLeR _
  have hinj : ∀ d₁ d₂ i, hmLookup d₁ (buildIdToIndex (List.insertionSort pkgLeR survivors)) = some i →
      hmLookup d₂ (buildIdToIndex (List.insertionSort pkgLeR survivors)) = some i → d₁ = d₂ := by
    intro d₁ d₂ i h1 h2
    obtain ⟨_, sp1, hsp1, hid1⟩ := buildIdToIndex_spec _ d₁ i h1
    obtain ⟨_, sp2, hsp2, hid2⟩ := buildIdToIndex_spec _ d₂ i h2
    rw [hsp1] at hsp2
    injection hsp2 with hsp2
    rw [← hid1, ← hid2, hsp2]
  have hnodes' := hnodes
  obtain ⟨l₀, hperm₀, hf₀⟩ := hnodes'
  have hnd_r' : (r'.nodes.map Node.id).Nodup := by
    have hmapeq : l₀.map Node.id = r.nodes.map Node.id := forall₂_nodeEquiv_map_id hf₀
    have : List.Perm (r'.nodes.map Node.id) (l₀.map Node.id) := hperm₀.map Node.id
    refine this.nodup_iff.mpr ?_
    rw [hmapeq]
    exact hnids
  have hfill' : fillDeps (aggKinds r'.nodes root)
      (buildIdToIndex (List.insertionSort pkgLeR survivors)) r'.nodes pkgs = .ok filled := by
    rw [show fillDeps (aggKinds r'.nodes root) = fillDeps (aggKinds r.nodes root) from ?_]
    · rw [fillDeps_perm _ _ r'.nodes l₀ hperm₀ hinj hnd_r' pkgs]
      rw [fillDeps_node_congr _ _ l₀ r.nodes hf₀ pkgs]
      exact hfill
    · funext idx nodes pkgs2
      unfold fillDeps
      rw [fillNode_kinds_congr _ _ idx hkq]
  have hroot' : r'.root = some root := by rw [hroot, hroot0]
  constructor
  · unfold from_metadata getResolve getRoot
    simp only [hr', exceptBind_ok]
    simp only [hroot', exceptBind_ok]
    rw [hflt']
    simp only [exceptBind_ok]
    rw [hsorted_eq]
    rw [show convertPackages (aggKinds r'.nodes root) = convertPackages (aggKinds r.nodes root) from ?_]
    · rw [hconv]
      simp only [exceptBind_ok]
      rw [hfill']
      simp only [exceptBind_ok]
      rw [hout]
    · unfold convertPackages
      rw [convertPackage_kinds_congr _ _ hkq]
  · unfold idToIndexE sortedSurvivorsE getResolve getRoot
    simp only [hr', hr, exceptBind_ok]
    simp only [hroot', hroot0, exceptBind_ok]
    rw [hflt', hflt]
    simp only [exceptBind_ok]
    rw [hsorted_eq]

/-- Witness for C6: a rotated package list, rotated node list and swapped
edge lists produce the same output as mdDev. -/
theorem normalizer_deterministic_witness :
    from_metadata mdDevPerm = .ok outDev ∧ idToIndexE mdDevPerm = idToIndexE mdDev :=
  normalizer_deterministic mdDev mdDevPerm resolveDev resolveDevPerm outDev rfl rfl rfl
    (by decide) (by decide)
    ⟨[nodeRPerm,
      { id := ("D"), deps := [], dependencies := [] },
      { id := ("B"), deps := [], dependencies := [] }],
     by decide,
     List.Forall₂.cons ⟨by decide, by decide, by decide⟩
       (List.Forall₂.cons ⟨by decide, by decide, by decide⟩
         (List.Forall₂.cons ⟨by decide, by decide, by decide⟩ List.Forall₂.nil))⟩
    (by decide) (by decide)
